import Mathlib

/-!
Verification of the OpenixIMG repository (Allwinner IMAGEWTY firmware
container reader) against its natural-language specification.

The development shallowly embeds the relevant C++ code:

* `OpenixIMGFile.cpp` / `OpenixPacker.cpp` — the IMAGEWTY container codec:
  image buffers are total functions `Nat → Nat` (byte value at each offset),
  RC6/Twofish are opaque 16-byte block primitives modelled as parameters of
  type `(Nat → Nat) → (Nat → Nat)` (block content in, block content out),
  and the in-place decryption passes become functional buffer updates.
* `OpenixCFG.cpp` — the DragonEx configuration parser and serializer, over
  `List Char`.
* `OpenixPartition.cpp` — the `sys_partition.fex` parser.

Definitions are translated from the source; definitions whose name contains
`Claimed` or `Spec` are written from the specification's words and are
compared with the source-derived ones.
-/

namespace OpenixIMG

/-! ## Byte buffers and block ciphers -/

/-- A 16-byte block primitive: given the block content (bytes at indices
0..15) produce the transformed block content.  RC6 and Twofish are external
collaborators of the repository and are treated as opaque primitives of this
type. -/
def BlockFn : Type := (Nat → Nat) → (Nat → Nat)

/-- Little-endian 32-bit read from a byte buffer, as done by
reinterpreting the buffer as `ImageHeader` / `FileHeader` structs
(`OpenixIMGFile.cpp:80`, `OpenixIMGFile.cpp:107`). -/
def readLE32 (buf : Nat → Nat) (off : Nat) : Nat :=
  buf off + 256 * buf (off + 1) + 65536 * buf (off + 2) + 16777216 * buf (off + 3)

/-- `OpenixIMGFile::rc6DecryptInPlace` (`OpenixIMGFile.cpp:537`): decrypt
`length / 16` consecutive 16-byte blocks starting at `off` in place; bytes
past the last whole block are untouched.  The cursor returned by the C++
function advances by `16 * (length / 16)` bytes. -/
def rc6DecryptRegion (D : BlockFn) (buf : Nat → Nat) (off len : Nat) : Nat → Nat :=
  fun j =>
    if off ≤ j ∧ j < off + 16 * (len / 16) then
      D (fun k => buf (off + 16 * ((j - off) / 16) + k)) ((j - off) % 16)
    else buf j

/-- The ASCII bytes of the magic string `"IMAGEWTY"` (`OpenixIMGWTY.hpp:22`). -/
def magicByte (k : Nat) : Nat :=
  if k = 0 then 73 else if k = 1 then 77 else if k = 2 then 65 else
  if k = 3 then 71 else if k = 4 then 69 else if k = 5 then 87 else
  if k = 6 then 84 else if k = 7 then 89 else 0

/-- The encryption check of `OpenixIMGFile::loadImage`
(`OpenixIMGFile.cpp:83`): the container counts as encrypted iff the first 8
bytes on initial read differ from `"IMAGEWTY"`. -/
def magicMismatch (buf : Nat → Nat) : Bool :=
  (List.range 8).any (fun k => buf k != magicByte k)

/-! ## Header field offsets

`ImageHeader` (`OpenixIMGWTY.hpp:46`): magic occupies bytes 0..7,
`header_version` bytes 8..11, then five u32 fields, and the dialect union
starts at byte 32.  In the v1 dialect `num_files` is the 7th u32 of the
union (offset 56); the v3 dialect prepends one `unknown` u32, putting
`num_files` at offset 60.

`FileHeader` (`OpenixIMGWTY.hpp:167`): `filename_len` at 0,
`total_header_size` at 4, `maintype` bytes 8..15, `subtype` bytes 16..31,
union at 32.  v1: `unknown_3`@32, `stored_length`@36, `original_length`@40,
`offset`@44, `unknown`@48, 256-byte `filename`@52.  v3: `unknown_0`@32,
256-byte `filename`@36, `stored_length`@292, `pad1`@296,
`original_length`@300, `pad2`@304, `offset`@308. -/

/-- Whether the header selects the v3 dialect (`OpenixIMGFile.cpp:94`):
`header_version == 0x0300`. -/
def isV3 (hdr : Nat → Nat) : Bool := readLE32 hdr 8 == 0x0300

/-- `num_files`, from the dialect-appropriate slot (`OpenixIMGFile.cpp:93`). -/
def numFilesOf (hdr : Nat → Nat) : Nat :=
  if isV3 hdr then readLE32 hdr 60 else readLE32 hdr 56

/-- Byte offset of the `stored_length` slot of file header `i`. -/
def storedLenOff (ver3 : Bool) (i : Nat) : Nat :=
  1024 + i * 1024 + (if ver3 then 292 else 36)

/-- One iteration of the file-content decryption loop
(`OpenixIMGFile.cpp:106`): read `stored_length` from the live buffer's file
header `i`, and if decrypting, RC6-decrypt at the running cursor; the cursor
advances by `16 * (stored_length / 16)` (the pointer returned by
`rc6DecryptInPlace`).  When not decrypting, the cursor is not advanced
(the assignment is inside the `if`). -/
def contentStep (Dfc : BlockFn) (ver3 : Bool) (cond : Bool)
    (st : (Nat → Nat) × Nat) (i : Nat) : (Nat → Nat) × Nat :=
  let stored := readLE32 st.1 (storedLenOff ver3 i)
  if cond then (rc6DecryptRegion Dfc st.1 st.2 stored, st.2 + 16 * (stored / 16))
  else st

/-- The file-content decryption loop of `loadImage` over file indices
`i, i+1, …, i+cnt-1`. -/
def contentAux (Dfc : BlockFn) (ver3 : Bool) (cond : Bool) (i cnt : Nat)
    (st : (Nat → Nat) × Nat) : (Nat → Nat) × Nat :=
  match cnt with
  | 0 => st
  | c + 1 => contentAux Dfc ver3 cond (i + 1) c (contentStep Dfc ver3 cond st i)

/-- The file-content decryption pass of `loadImage`: run the loop over file
indices `0..n-1`, starting at cursor `1024 + n·1024`. -/
def contentPass (Dfc : BlockFn) (ver3 : Bool) (cond : Bool) (n : Nat)
    (buf : Nat → Nat) : (Nat → Nat) × Nat :=
  contentAux Dfc ver3 cond 0 n (buf, 1024 + n * 1024)

/-- The in-memory buffer transformation performed by
`OpenixIMGFile::loadImage` (`OpenixIMGFile.cpp:80`–`OpenixIMGFile.cpp:121`):
header pass, file-header-table pass, file-content pass, each applied only
when the magic mismatched on initial read and encryption support is
enabled. -/
def loadImageBuf (Dh Dfh Dfc : BlockFn) (encEnabled : Bool) (buf : Nat → Nat) :
    Nat → Nat :=
  let cond := magicMismatch buf && encEnabled
  let b1 := if cond then rc6DecryptRegion Dh buf 0 1024 else buf
  let n := numFilesOf b1
  let b2 := if cond then rc6DecryptRegion Dfh b1 1024 (n * 1024) else b1
  (contentPass Dfc (isV3 b1) cond n b2).1

/-! ## File list and accessors (`OpenixIMGFile::loadFileList`,
`OpenixIMGFile::getFileDataByFilename`) -/

/-- C `isspace` on a byte (space, \t, \n, \v, \f, \r). -/
def isSpaceByte (c : Nat) : Bool :=
  c == 32 || c == 9 || c == 10 || c == 11 || c == 12 || c == 13

/-- Read `len` consecutive bytes starting at `off`. -/
def readBytes (buf : Nat → Nat) (off len : Nat) : List Nat :=
  (List.range len).map (fun k => buf (off + k))

/-- Read a C string of at most `max` bytes starting at `off`: the bytes up
to (excluding) the first NUL.  This models the
`std::string(fileHeader->…filename.data())` constructor
(`OpenixIMGFile.cpp:293`, `OpenixIMGFile.cpp:298`). -/
def readCString (buf : Nat → Nat) (off max : Nat) : List Nat :=
  (readBytes buf off max).takeWhile (fun c => c != 0)

/-- Remove the longest trailing run of characters satisfying `p`; models the
`erase(find_if(rbegin, rend, …).base(), end())` idiom
(`OpenixIMGFile.cpp:305`). -/
def dropTrailing (p : Nat → Bool) (l : List Nat) : List Nat :=
  (l.reverse.dropWhile p).reverse

/-- The cleanup applied to the three text fields of a file header
(`OpenixIMGFile.cpp:304`–`OpenixIMGFile.cpp:325`): drop trailing bytes that
are ASCII whitespace or NUL. -/
def cleanField (l : List Nat) : List Nat :=
  dropTrailing (fun c => isSpaceByte c || c == 0) l

/-- One entry of the file index built by `loadFileList`. -/
structure FileInfo where
  filename : List Nat
  maintype : List Nat
  subtype : List Nat
  storedLength : Nat
  originalLength : Nat
  offset : Nat
  deriving Repr, DecidableEq

/-- Extraction of file-index entry `i` (`OpenixIMGFile.cpp:282`–`OpenixIMGFile.cpp:327`):
the filename is read as a C string (truncated at the first NUL) and then
stripped of trailing whitespace; maintype/subtype are read at fixed lengths
8/16 and stripped of trailing whitespace and NULs. -/
def mkFileInfo (buf : Nat → Nat) (ver3 : Bool) (i : Nat) : FileInfo :=
  let base := 1024 + i * 1024
  { filename :=
      if ver3 then cleanField (readCString buf (base + 36) 256)
      else cleanField (readCString buf (base + 52) 256)
    maintype := cleanField (readBytes buf (base + 8) 8)
    subtype := cleanField (readBytes buf (base + 16) 16)
    storedLength := if ver3 then readLE32 buf (base + 292) else readLE32 buf (base + 36)
    originalLength := if ver3 then readLE32 buf (base + 300) else readLE32 buf (base + 40)
    offset := if ver3 then readLE32 buf (base + 308) else readLE32 buf (base + 44) }

/-- The file list built by `loadFileList` for headers `i, i+1, …, i+cnt-1`. -/
def fileListAux (buf : Nat → Nat) (ver3 : Bool) (i cnt : Nat) : List FileInfo :=
  match cnt with
  | 0 => []
  | c + 1 => mkFileInfo buf ver3 i :: fileListAux buf ver3 (i + 1) c

/-- `OpenixIMGFile::loadFileList` (`OpenixIMGFile.cpp:269`). -/
def loadFileList (buf : Nat → Nat) (ver3 : Bool) (n : Nat) : List FileInfo :=
  fileListAux buf ver3 0 n

/-! ## The `OpenixIMGFile` container state and `loadImage` -/

/-- The observable state of an `OpenixIMGFile` object
(`OpenixIMGFile.hpp`).  The parsed `imageHeader_` struct is modelled by the
1024 header bytes it was copied from. -/
structure IMGState where
  encryptionEnabled : Bool
  imageLoaded : Bool
  imageSize : Nat
  imageData : Nat → Nat
  imageHeader : Nat → Nat
  imageFilePath : String
  isEncrypted : Bool
  fileList : List FileInfo
  pid : Nat
  vid : Nat
  hardwareId : Nat
  firmwareId : Nat

/-- A filesystem: maps a path to the size and contents of the file, when it
exists. -/
def FS : Type := String → Option (Nat × (Nat → Nat))

/-- `OpenixIMGFile::loadImage` (`OpenixIMGFile.cpp:50`).  The Twofish block
primitive `tf` is part of the object's crypto state but is never applied on
this path; it is threaded as an (unused) argument for fidelity.  Early
`return false` paths (missing file, zero size) return the state exactly as
the C++ leaves it: in particular `imageLoaded_` is NOT reset there (it is
reset only in the `catch` handler). -/
def loadImage (Dh Dfh Dfc tf : BlockFn) (fs : FS) (s : IMGState) (path : String) :
    Bool × IMGState :=
  match fs path with
  | none => (false, s)
  | some (sz, data) =>
    let s1 : IMGState := { s with imageSize := sz }
    if sz = 0 then (false, s1)
    else
      let cond := magicMismatch data && s.encryptionEnabled
      let b1 := if cond then rc6DecryptRegion Dh data 0 1024 else data
      let ver3 := isV3 b1
      let n := numFilesOf b1
      let b2 := if cond then rc6DecryptRegion Dfh b1 1024 (n * 1024) else b1
      let b3 := (contentPass Dfc ver3 cond n b2).1
      (true,
        { s1 with
          imageData := b3
          imageFilePath := path
          imageHeader := b1
          isEncrypted := magicMismatch data
          pid := if ver3 then readLE32 b1 36 else readLE32 b1 32
          vid := if ver3 then readLE32 b1 40 else readLE32 b1 36
          hardwareId := if ver3 then readLE32 b1 44 else readLE32 b1 40
          firmwareId := if ver3 then readLE32 b1 48 else readLE32 b1 44
          fileList := loadFileList b3 ver3 n
          imageLoaded := true })

/-- Copy of the byte range `[off, off + len)` of the buffer, as produced by
the `memcpy` in `getFileDataByFilename` (`OpenixIMGFile.cpp:473`). -/
def sliceBytes (buf : Nat → Nat) (off len : Nat) : List Nat :=
  readBytes buf off len

/-- `OpenixIMGFile::getFileDataByFilename` (`OpenixIMGFile.cpp:457`):
requires a loaded image, scans the file list in header order for the first
entry whose (cleaned) filename equals the query, and returns a fresh copy of
`original_length` bytes starting at the entry's offset; absent otherwise. -/
def getFileDataByFilename (s : IMGState) (name : List Nat) : Option (List Nat) :=
  if s.imageLoaded then
    match s.fileList.find? (fun fi => fi.filename == name) with
    | some fi => some (sliceBytes s.imageData fi.offset fi.originalLength)
    | none => none
  else none

/-! ## Key schedule (`OpenixIMGFile::initializeCrypto`,
`OpenixPacker::initializeCrypto`) -/

/-- The header RC6 key (`OpenixIMGFile.cpp:244`): `std::vector<uint8_t>
headerKey(32, 0); headerKey[31] = 'i';`. -/
def headerKeyBytes : List Nat := (List.replicate 32 0).set 31 105

/-- The file-headers RC6 key (`OpenixIMGFile.cpp:249`): 32 bytes of 1 with
byte 31 set to `'m'`. -/
def fileHeadersKeyBytes : List Nat := (List.replicate 32 1).set 31 109

/-- The file-content RC6 key (`OpenixIMGFile.cpp:254`): 32 bytes of 2 with
byte 31 set to `'g'`. -/
def fileContentKeyBytes : List Nat := (List.replicate 32 2).set 31 103

/-- The 32-byte Twofish-256 key built by `initializeCrypto`
(`OpenixIMGFile.cpp:259`): a vector of 32 zero bytes (constructor), then
`k[0]=5; k[1]=4;` and a loop setting `k[i] = k[i-2] + k[i-1]` for
`i = 2..31` in `uint8_t` arithmetic (modulo 256). -/
def twofishKeyBytes : List Nat :=
  (List.range 30).foldl
    (fun l i => l.set (i + 2) ((l.getD i 0 + l.getD (i + 1) 0) % 256))
    (((List.replicate 32 0).set 0 5).set 1 4)

/-- Modelled from the spec's words (C5): the Twofish key recurrence
`k[0]=5, k[1]=4, k[i]=k[i-1]+k[i-2] (mod 256)`. -/
def twofishKeyByteClaimed : Nat → Nat
  | 0 => 5
  | 1 => 4
  | n + 2 => (twofishKeyByteClaimed (n + 1) + twofishKeyByteClaimed n) % 256

/-! ## `OpenixPacker::decryptImage` (`OpenixPacker.cpp:236`)

The method is declared `const`; it performs all decryption work on a local
copy `decryptedImageData` whose encrypted regions are re-read from the
source path, and writes the result to the output file.  The embedding
threads the object state explicitly and returns it alongside the success
flag and the bytes written (if any). -/

/-- The observable state of an `OpenixPacker` object (`OpenixPacker.hpp`). -/
structure PackerState where
  encryptionEnabled : Bool
  imageLoaded : Bool
  imageSize : Nat
  imageData : Nat → Nat
  imageHeader : Nat → Nat
  imageFilePath : String
  isEncrypted : Bool

/-- Overwrite bytes `[off, off + len)` of `buf` with bytes read from file
contents `fdata` (of size `fsz`) at the same offsets; a read past the end of
the file leaves the destination vector's zero-initialised bytes (`ifstream`
reads what is available into a value-initialised `std::vector`). -/
def overwriteFromFile (buf : Nat → Nat) (fdata : Nat → Nat) (fsz off len : Nat) :
    Nat → Nat :=
  fun j => if off ≤ j ∧ j < off + len then (if j < fsz then fdata j else 0) else buf j

/-- `OpenixPacker::decryptImage` (`OpenixPacker.cpp:236`).  Returns
`(success, bytes written if any, resulting object state)`.  The method is
`const`: no field of the object is ever assigned, so every exit returns the
incoming state `s`.  Note `OpenixPacker::rc6DecryptInPlace`
(`OpenixPacker.cpp:835`) is a no-op (other than advancing the cursor) when
`encryptionEnabled_` is false, but on this path it is only reached when
`isEncrypted_ && encryptionEnabled_` holds. -/
def decryptImage (Dh Dfh Dfc : BlockFn) (fs : FS) (s : PackerState)
    (outPath : String) : Bool × Option (Nat → Nat) × PackerState :=
  if !s.imageLoaded then (false, none, s)
  else
    let copy0 := s.imageData
    if s.isEncrypted && s.encryptionEnabled then
      match fs s.imageFilePath with
      | none => (false, none, s)
      | some (fsz, fdata) =>
        let c1 := overwriteFromFile copy0 fdata fsz 0 1024
        let c2 := rc6DecryptRegion Dh c1 0 1024
        let n := numFilesOf c2
        let c3 := overwriteFromFile c2 fdata fsz 1024 (n * 1024)
        let c4 := rc6DecryptRegion Dfh c3 1024 (n * 1024)
        if s.imageSize < 1024 + n * 1024 then (false, none, s)
        else
          let c5 := overwriteFromFile c4 fdata fsz (1024 + n * 1024)
            (s.imageSize - (1024 + n * 1024))
          let c6 := (contentPass Dfc (isV3 c2) true n c5).1
          (true, some c6, s)
    else (true, some copy0, s)

/-! ## Specification-side definitions for the load-path decryption (C1) -/

/-- Modelled from the claim's words (C1, as stated): the same three-pass
decryption, except that in the file-content pass the running cursor `p`
advances by `stored_length_i` after each file (rather than by
`16 * (stored_length_i / 16)` as the code's `rc6DecryptInPlace` return
value does). -/
def contentStepClaimed (Dfc : BlockFn) (ver3 : Bool)
    (st : (Nat → Nat) × Nat) (i : Nat) : (Nat → Nat) × Nat :=
  let stored := readLE32 st.1 (storedLenOff ver3 i)
  (rc6DecryptRegion Dfc st.1 st.2 stored, st.2 + stored)

/-- The file-content loop as claim C1 states it. -/
def contentAuxClaimed (Dfc : BlockFn) (ver3 : Bool) (i cnt : Nat)
    (st : (Nat → Nat) × Nat) : (Nat → Nat) × Nat :=
  match cnt with
  | 0 => st
  | c + 1 => contentAuxClaimed Dfc ver3 (i + 1) c (contentStepClaimed Dfc ver3 st i)

/-- The load-path buffer transformation as claim C1 states it (cursor
advanced by `stored_length_i`); no transformation at all when the magic
matches. -/
def loadImageBufClaimed (Dh Dfh Dfc : BlockFn) (buf : Nat → Nat) : Nat → Nat :=
  if magicMismatch buf then
    let b1 := rc6DecryptRegion Dh buf 0 1024
    let n := numFilesOf b1
    let b2 := rc6DecryptRegion Dfh b1 1024 (n * 1024)
    (contentAuxClaimed Dfc (isV3 b1) 0 n (b2, 1024 + n * 1024)).1
  else buf

/-- The regions decrypted by the file-content pass, per the amended claim:
starting at cursor `1024 + n·1024`, file `i` contributes the region
`[p, p + 16·⌊stored_length_i/16⌋)` where `stored_length_i` is read from the
decrypted file-header table `b2`, and `p` advances by that region's
length. -/
def contentRegionsAux (b2 : Nat → Nat) (ver3 : Bool) (i cnt p : Nat) :
    List (Nat × Nat) :=
  match cnt with
  | 0 => []
  | c + 1 =>
    let len := 16 * (readLE32 b2 (storedLenOff ver3 i) / 16)
    (p, len) :: contentRegionsAux b2 ver3 (i + 1) c (p + len)

/-- Amended-claim decryption (spec side): decrypt the header region, the
file-header-table region, then each file-content region computed by
`contentRegionsAux` from the already-decrypted table; a magic-matching
buffer is returned unchanged. -/
def loadImageBufAmended (Dh Dfh Dfc : BlockFn) (buf : Nat → Nat) : Nat → Nat :=
  if magicMismatch buf then
    let b1 := rc6DecryptRegion Dh buf 0 1024
    let n := numFilesOf b1
    let b2 := rc6DecryptRegion Dfh b1 1024 (n * 1024)
    (contentRegionsAux b2 (isV3 b1) 0 n (1024 + n * 1024)).foldl
      (fun b r => rc6DecryptRegion Dfc b r.1 r.2) b2
  else buf

/-- The complete list of decrypted regions of an encrypted load (amended
claim): header `[0,1024)`, file-header table `[1024, 1024 + n·1024)`, then
the content regions. -/
def decryptedRegions (Dh Dfh : BlockFn) (buf : Nat → Nat) : List (Nat × Nat) :=
  let b1 := rc6DecryptRegion Dh buf 0 1024
  let n := numFilesOf b1
  let b2 := rc6DecryptRegion Dfh b1 1024 (n * 1024)
  (0, 1024) :: (1024, n * 1024) ::
    contentRegionsAux b2 (isV3 b1) 0 n (1024 + n * 1024)

/-! ## Specification-side definitions for the filename accessor (C4) -/

/-- Modelled from the claim's words (C4, as stated): the "cleaned filename"
is the raw 256-byte filename field with trailing NUL bytes and ASCII
whitespace stripped (no truncation at an interior NUL). -/
def cleanFilenameClaimed (buf : Nat → Nat) (ver3 : Bool) (i : Nat) : List Nat :=
  let base := 1024 + i * 1024
  cleanField (readBytes buf (base + (if ver3 then 36 else 52)) 256)

/-- The source's cleaned filename of entry `i`: the field truncated at the
first NUL, then trailing ASCII whitespace (and NULs) stripped. -/
def cleanFilenameSrc (buf : Nat → Nat) (ver3 : Bool) (i : Nat) : List Nat :=
  let base := 1024 + i * 1024
  cleanField (readCString buf (base + (if ver3 then 36 else 52)) 256)

/-- Spec-side filename lookup over the raw buffer (amended claim): scan file
headers `i, i+1, …` in order; at the first whose source-cleaned filename
equals the query, return the `original_length` bytes at `offset`; absent when
no entry matches. -/
def lookupSpecAux (buf : Nat → Nat) (ver3 : Bool) (name : List Nat) (i cnt : Nat) :
    Option (List Nat) :=
  match cnt with
  | 0 => none
  | c + 1 =>
    if cleanFilenameSrc buf ver3 i = name then
      let base := 1024 + i * 1024
      some (sliceBytes buf
        (if ver3 then readLE32 buf (base + 308) else readLE32 buf (base + 44))
        (if ver3 then readLE32 buf (base + 300) else readLE32 buf (base + 40)))
    else lookupSpecAux buf ver3 name (i + 1) c

/-- Spec-side filename-keyed data lookup (amended claim C4). -/
def lookupDataSpec (buf : Nat → Nat) (ver3 : Bool) (n : Nat) (name : List Nat) :
    Option (List Nat) :=
  lookupSpecAux buf ver3 name 0 n

/-- Claim-stated filename lookup (C4 as stated): same scan, but matching
against `cleanFilenameClaimed` (trailing strip of the whole field, no
truncation at interior NULs). -/
def lookupClaimedAux (buf : Nat → Nat) (ver3 : Bool) (name : List Nat) (i cnt : Nat) :
    Option (List Nat) :=
  match cnt with
  | 0 => none
  | c + 1 =>
    if cleanFilenameClaimed buf ver3 i = name then
      let base := 1024 + i * 1024
      some (sliceBytes buf
        (if ver3 then readLE32 buf (base + 308) else readLE32 buf (base + 44))
        (if ver3 then readLE32 buf (base + 300) else readLE32 buf (base + 40)))
    else lookupClaimedAux buf ver3 name (i + 1) c

/-- Claim-stated filename-keyed data lookup (C4 as stated). -/
def lookupDataClaimed (buf : Nat → Nat) (ver3 : Bool) (n : Nat) (name : List Nat) :
    Option (List Nat) :=
  lookupClaimedAux buf ver3 name 0 n

/-! ## Concrete test images -/

/-- A concrete 16-byte block permutation (bytewise complement), standing in
for the opaque RC6 primitive in concrete evaluations. -/
def compBlock : BlockFn := fun b k => 255 - b k

/-- Plaintext of a tiny v1 image with 2 files: `header_version = 0x0100`
(byte 9), `num_files = 2` (byte 56), file 0 has `stored_length = 8`
(byte 1060), file 1 has `stored_length = 16` (byte 2084); total size
3096 bytes (1024 header + 2·1024 file headers + 8 + 16 payload, the
payload starting at 3072). -/
def plainBufC1 : Nat → Nat := fun j =>
  if j = 9 then 1 else if j = 56 then 2 else
  if j = 1060 then 8 else if j = 2084 then 16 else 0

/-- The bytewise complement of `plainBufC1`: an "encrypted" image whose
first 8 bytes differ from the magic and which decrypts (under `compBlock`)
to `plainBufC1` on every whole 16-byte block the code touches. -/
def encBufC1 : Nat → Nat := fun j => 255 - plainBufC1 j

/-- A tiny unencrypted v1 image, 2052 bytes: magic present, `num_files = 1`,
file 0 has `original_length = 4` (byte 1064), `offset = 2048`
(bytes 1068..1069 encode 0x800), filename field bytes `'a', NUL, 'b'`
(bytes 1076..1078), and payload `1,2,3,4` at 2048..2051. -/
def plainImgBuf : Nat → Nat := fun j =>
  if j < 8 then magicByte j else
  if j = 9 then 1 else if j = 56 then 1 else
  if j = 1064 then 4 else if j = 1069 then 8 else
  if j = 1076 then 97 else if j = 1078 then 98 else
  if j = 2048 then 1 else if j = 2049 then 2 else
  if j = 2050 then 3 else if j = 2051 then 4 else 0

/-- A filesystem holding the unencrypted test image under path `"img"` and
a zero-length file under path `"empty"`. -/
def fsImg : FS := fun p =>
  if p = "img" then some (2052, plainImgBuf)
  else if p = "empty" then some (0, fun _ => 0) else none

/-- The state of a freshly constructed `OpenixIMGFile`
(`OpenixIMGFile.cpp:23`). -/
def initIMGState : IMGState :=
  { encryptionEnabled := true, imageLoaded := false, imageSize := 0,
    imageData := fun _ => 0, imageHeader := fun _ => 0, imageFilePath := "",
    isEncrypted := false, fileList := [], pid := 0, vid := 0,
    hardwareId := 0, firmwareId := 0 }

end OpenixIMG

namespace OpenixCFG

/-! ## DragonEx configuration parser (`OpenixCFG.cpp`)

The parser is line oriented (`loadFromStream` reads with `std::getline`).
Lines are `List Char`.  The document is the ordered list of groups, each an
ordered list of variables; the flat `variableMap_` is an association list
where insertion prepends (an `unordered_map` overwrite: the newest binding
wins). -/

/-- C `isspace` on a character (space, \t, \n, \v, \f, \r; codes 32 and
9–13). -/
def isSpaceC (c : Char) : Bool :=
  c.toNat == 32 || (9 ≤ c.toNat && c.toNat ≤ 13)

/-- C `isalpha` (ASCII letter ranges). -/
def isAlphaC (c : Char) : Bool :=
  (97 ≤ c.toNat && c.toNat ≤ 122) || (65 ≤ c.toNat && c.toNat ≤ 90)

/-- C `isdigit`. -/
def isDigitC (c : Char) : Bool := 48 ≤ c.toNat && c.toNat ≤ 57

/-- C `isalnum` (ASCII). -/
def isAlnumC (c : Char) : Bool := isAlphaC c || isDigitC c

/-- The three leaf value kinds of a DragonEx `Variable`
(`OpenixCFG.hpp`: `ValueType::NUMBER/STRING/REFERENCE`).  Numbers are
stored as `uint32_t`. -/
inductive CLeaf where
  | num (n : Nat)
  | str (s : List Char)
  | ref (s : List Char)
  deriving DecidableEq, Repr

/-- A variable value: a leaf, or a `LIST_ITEM` whose children are leaves
(`parseKeyValue` never produces a list, so parser-built lists have leaf
children only). -/
inductive CVal where
  | leaf (l : CLeaf)
  | lst (items : List (List Char × CLeaf))
  deriving DecidableEq, Repr

/-- A named variable. -/
abbrev CVar := List Char × CVal

/-- A group: name and ordered variables. -/
abbrev CGroup := List Char × List CVar

/-- A document: ordered groups. -/
abbrev Doc := List CGroup

/-- Parser state: the ordered document plus the flat variable index
(`variableMap_`); the group index is recoverable as the set of group names
of `doc`, and the current group is always the last group of `doc`. -/
structure PState where
  doc : Doc
  vmap : List (List Char × CVal)
  deriving DecidableEq, Repr

/-- `findVariable` on the flat index (`OpenixCFG.cpp:221`): the newest
binding for the name. -/
def findVar (s : PState) (name : List Char) : Option CVal :=
  (s.vmap.find? (fun kv => kv.1 == name)).map (fun kv => kv.2)

/-- `findGroup` (`OpenixCFG.cpp:214`) as an existence test: the map keys
are exactly the names of the groups inserted so far. -/
def findGroupB (s : PState) (name : List Char) : Bool :=
  (s.doc.map (fun g => g.1)).contains name

/-- `OpenixCFG::skipWhitespace` (`OpenixCFG.cpp:355`): drop leading
whitespace; if the first non-whitespace character is `;` the whole line is
cleared. -/
def skipWS (l : List Char) : List Char :=
  let r := l.dropWhile isSpaceC
  if r.head? = some ';' then [] else r

/-- Identifier characters of `parseIdentifier`: alphanumeric or `_`. -/
def identChar (c : Char) : Bool := isAlnumC c || c == '_'

/-- `OpenixCFG::parseIdentifier` (`OpenixCFG.cpp:372`).  The loop condition
tests `line[0] == '.'` (the first character of the whole line, not the
cursor), so a line starting with `.` is consumed in its entirety; otherwise
the identifier is the maximal run of alphanumeric/`_` characters.  Returns
(identifier, rest of line). -/
def parseIdent (l : List Char) : List Char × List Char :=
  let r := skipWS l
  if r.head? = some '.' then (r, [])
  else (r.takeWhile identChar, r.dropWhile identChar)

/-- The scanning loop of `OpenixCFG::parseString` (`OpenixCFG.cpp:406`):
collect until the delimiter; a backslash escapes exactly the next character
(a trailing lone backslash is kept literally and ends the line).  Returns
(string contents, rest after the closing delimiter). -/
def parseStringBody (delim : Char) : List Char → List Char × List Char
  | [] => ([], [])
  | c :: rest =>
    if c = delim then ([], rest)
    else if c = '\\' then
      match rest with
      | [] => (['\\'], [])
      | d :: rest2 =>
        let p := parseStringBody delim rest2
        (d :: p.1, p.2)
    else
      let p := parseStringBody delim rest
      (c :: p.1, p.2)

/-- `OpenixCFG::parseString` (`OpenixCFG.cpp:393`): after whitespace, a
`"`- or `'`-delimited string; anything else yields the empty string and
leaves the (whitespace-skipped) line in place. -/
def parseStringL (l : List Char) : List Char × List Char :=
  let r := skipWS l
  match r with
  | [] => ([], r)
  | c :: rest => if c = '"' ∨ c = '\'' then parseStringBody c rest else ([], r)

/-- `LONG_MAX` on a 64-bit platform. -/
def longMax : Nat := 9223372036854775807

/-- Value of a hexadecimal digit character. -/
def hexVal (c : Char) : Nat :=
  if isDigitC c then c.toNat - 48
  else if 97 ≤ c.toNat && c.toNat ≤ 102 then c.toNat - 87
  else c.toNat - 55

/-- Hexadecimal digit test. -/
def isHexC (c : Char) : Bool :=
  isDigitC c || (97 ≤ c.toNat && c.toNat ≤ 102) || (65 ≤ c.toNat && c.toNat ≤ 70)

/-- Octal digit test. -/
def isOctC (c : Char) : Bool := 48 ≤ c.toNat && c.toNat ≤ 55

/-- Digit-run accumulator of `strtol`: consume digits satisfying `p`,
accumulating with the given base; returns (value, rest). -/
def stolDigits (p : Char → Bool) (v : Char → Nat) (base : Nat) :
    List Char → Nat → Nat × List Char
  | [], acc => (acc, [])
  | c :: rest, acc =>
    if p c then stolDigits p v base rest (acc * base + v c) else (acc, c :: rest)

/-- Base selection of `strtol` with base 0: `0x`/`0X` followed by a hex
digit is hexadecimal; a leading `0` otherwise is octal (consuming the `0`
itself); a decimal digit starts decimal; anything else is no number.
Returns the magnitude and the unconsumed rest. -/
def stolCore : List Char → Option (Nat × List Char)
  | [] => none
  | c :: rest =>
    if c = '0' then
      match rest with
      | [] => some (0, [])
      | x :: rest2 =>
        if (x == 'x' || x == 'X') &&
            (match rest2 with | c2 :: _ => isHexC c2 | [] => false) then
          some (stolDigits isHexC hexVal 16 rest2 0)
        else some (stolDigits isOctC hexVal 8 (c :: x :: rest2) 0)
    else if isDigitC c then some (stolDigits isDigitC hexVal 10 (c :: rest) 0)
    else none

/-- `std::stol(line, &endPos, 0)` on an already-whitespace-trimmed line:
optional sign, then `stolCore`; `none` both when no digits are consumed
(`std::invalid_argument`) and when the value overflows a 64-bit `long`
(`std::out_of_range`) — `parseExpression` catches both and falls through to
the string path. -/
def stolL (l : List Char) : Option (Int × List Char) :=
  if l.head? = some '-' then
    match stolCore l.tail with
    | some (v, r) => if v ≤ 9223372036854775808 then some (-(v : Int), r) else none
    | none => none
  else if l.head? = some '+' then
    match stolCore l.tail with
    | some (v, r) => if v ≤ longMax then some ((v : Int), r) else none
    | none => none
  else
    match stolCore l with
    | some (v, r) => if v ≤ longMax then some ((v : Int), r) else none
    | none => none

/-- The `uint32_t` cast applied by `Variable::setNumber` to the parsed
`long`. -/
def toU32 (v : Int) : Nat := (v % (4294967296 : Int)).toNat

/-- Lowercase hexadecimal digit character. -/
def hexDigitChar (n : Nat) : Char :=
  if n < 10 then Char.ofNat (48 + n) else Char.ofNat (87 + n)

/-- Decimal digit character. -/
def decDigitChar (n : Nat) : Char := Char.ofNat (48 + n)

/-- Lowercase hexadecimal rendering of a number, as `%x` / `std::hex`
produce it. -/
def natToHex (n : Nat) : List Char :=
  if h : n < 16 then [hexDigitChar n]
  else natToHex (n / 16) ++ [hexDigitChar (n % 16)]
  termination_by n
  decreasing_by simp_wf; omega

/-- Decimal rendering of a number, as `operator<<` on an unsigned produces
it. -/
def natToDec (n : Nat) : List Char :=
  if h : n < 10 then [decDigitChar n]
  else natToDec (n / 10) ++ [decDigitChar (n % 10)]
  termination_by n
  decreasing_by simp_wf; omega

/-- The continuation test of the atom loop: `line.size() >= 2 &&
line[0]=='.' && line[1]=='.'`. -/
def isDotDot : List Char → Bool
  | '.' :: '.' :: _ => true
  | _ => false

/-- The atom-concatenation loop of `OpenixCFG::parseExpression`
(`OpenixCFG.cpp:455`–`OpenixCFG.cpp:488`): strings contribute their bytes; an
identifier is resolved through the flat variable index — a String variable
substitutes its value, a Number variable substitutes `0x%x`, anything else
contributes the identifier itself; atoms are joined by `..`.  Returns
(accumulated string, whether any atom was seen, rest of line).  The fuel is
an upper bound on iterations; each continuing iteration consumes at least
one character, so `length + 1` never runs out. -/
def exprAtomsLoop (s : PState) : Nat → List Char → List Char → Bool →
    List Char × Bool × List Char
  | 0, l, acc, isStr => (acc, isStr, l)
  | f + 1, l, acc, isStr =>
    if l = [] then (acc, isStr, l)
    else
      match skipWS l with
      | [] => (acc, isStr, [])
      | c :: r1 =>
        if c = '"' ∨ c = '\'' then
          let p := parseStringL (c :: r1)
          let l3 := skipWS p.2
          if isDotDot l3 then exprAtomsLoop s f (l3.drop 2) (acc ++ p.1) true
          else (acc ++ p.1, true, l3)
        else if isAlphaC c || c == '_' || c == '.' then
          let p := parseIdent (c :: r1)
          let contrib :=
            match findVar s p.1 with
            | some (CVal.leaf (CLeaf.str v)) => v
            | some (CVal.leaf (CLeaf.num n)) => '0' :: 'x' :: natToHex n
            | _ => p.1
          let l3 := skipWS p.2
          if isDotDot l3 then exprAtomsLoop s f (l3.drop 2) (acc ++ contrib) true
          else (acc ++ contrib, true, l3)
        else (acc, isStr, c :: r1)

/-- `OpenixCFG::parseExpression` (`OpenixCFG.cpp:427`): a leading digit or
`-` attempts `std::stol` (base 0) and on success yields a Number (stored as
`uint32_t`); otherwise the atom loop accumulates a string; if the result is
nonempty, contains no `"` and names an existing group, the value is a
Reference; otherwise a String when any atom was seen, else Number 0.
Returns (leaf, rest of line). -/
def parseExpressionL (s : PState) (l : List Char) : CLeaf × List Char :=
  let l0 := skipWS l
  match l0 with
  | [] => (CLeaf.str [], l0)
  | c :: _ =>
    if isDigitC c || c = '-' then
      match stolL l0 with
      | some (v, r) => (CLeaf.num (toU32 v), r)
      | none => (CLeaf.num 0, l0)
    else
      let t := exprAtomsLoop s (l0.length + 1) l0 [] false
      if t.2.1 && !t.1.isEmpty && !t.1.contains '"' && findGroupB s t.1 then
        (CLeaf.ref t.1, t.2.2)
      else if t.2.1 then (CLeaf.str t.1, t.2.2)
      else (CLeaf.num 0, t.2.2)

/-- `OpenixCFG::parseKeyValue` (`OpenixCFG.cpp:563`): identifier, `=`,
expression.  Returns (the variable if one was produced — `nullptr`
otherwise — and the rest of the line as the C++ leaves it). -/
def parseKeyValueL (s : PState) (l : List Char) : Option CVar × List Char :=
  let l1 := skipWS l
  let p := parseIdent l1
  if p.1 = [] then (none, p.2)
  else
    match skipWS p.2 with
    | '=' :: rest =>
      let e := parseExpressionL s rest
      (some (p.1, CVal.leaf e.1), e.2)
    | l3 => (none, l3)

/-- The item loop of `OpenixCFG::parseListItem` (`OpenixCFG.cpp:625`):
repeatedly parse a key-value (a failed parse contributes nothing), then a
comma continues the loop and a `}` (before or after the comma) ends it.
Each continuing iteration consumes the comma, so fuel `length + 1` never
runs out. -/
def parseListLoop (s : PState) : Nat → List Char → List (List Char × CLeaf) →
    List (List Char × CLeaf) × List Char
  | 0, l, acc => (acc, l)
  | f + 1, l, acc =>
    let l1 := skipWS l
    if l1 = [] then (acc, [])
    else if l1.head? = some '}' then (acc, l1.tail)
    else
      let p := parseKeyValueL s l1
      let acc2 := match p.1 with
        | some (n, CVal.leaf lf) => acc ++ [(n, lf)]
        | _ => acc
      let l3 := skipWS p.2
      if l3.head? = some ',' then
        (if l3.tail.head? = some '}' then (acc2, l3.tail.tail)
         else parseListLoop s f l3.tail acc2)
      else if l3.head? = some '}' then (acc2, l3.tail)
      else (acc2, l3)

/-- `OpenixCFG::parseListItem` (`OpenixCFG.cpp:609`): a `{`-introduced
anonymous list variable; children are collected by `parseListLoop`. -/
def parseListItemL (s : PState) (l : List Char) : Option (CVal × List Char) :=
  match skipWS l with
  | '{' :: rest =>
    let p := parseListLoop s (rest.length + 1) rest []
    some (CVal.lst p.1, p.2)
  | _ => none

/-- Split at the first occurrence of a character: `some (before, after)`
with the character removed, `none` when absent (models `std::string::find`
plus `substr`). -/
def breakAtChar (c : Char) : List Char → Option (List Char × List Char)
  | [] => none
  | x :: rest =>
    if x = c then some ([], rest)
    else (breakAtChar c rest).map (fun p => (x :: p.1, p.2))

/-- Trim whitespace from both ends. -/
def trimWS (l : List Char) : List Char :=
  ((l.dropWhile isSpaceC).reverse.dropWhile isSpaceC).reverse

/-- `OpenixCFG::parseGroup` (`OpenixCFG.cpp:508`): find `[`, skip
whitespace, read up to `]`, trim the name; `nullptr` (here `none`) when
`[` or `]` is missing or the trimmed name is empty. -/
def parseGroupL (l : List Char) : Option (List Char) :=
  match breakAtChar '[' l with
  | none => none
  | some (_, after) =>
    let a := after.dropWhile isSpaceC
    if a = [] then none
    else
      match breakAtChar ']' a with
      | none => none
      | some (name, _) =>
        let t := trimWS name
        if t = [] then none else some t

/-- Append a variable to the last (current) group of the document. -/
def addVarLast (d : Doc) (v : CVar) : Doc :=
  match d with
  | [] => []
  | [g] => [(g.1, g.2 ++ [v])]
  | g :: rest => g :: addVarLast rest v

/-- The per-line dispatch of `OpenixCFG::loadFromStream`
(`OpenixCFG.cpp:157`–`OpenixCFG.cpp:209`).  `none` models an aborted parse:
the explicit `throw std::runtime_error("Unknown line format")`, and the
null-pointer dereferences that follow a failed `parseGroup`
(`groupMap_[newGroup->getName()]`) or a failed `parseKeyValue`
(`variableMap_[var->getName()]`).  A list item or key-value with no current
group is logged and skipped. -/
def lineStep (s : PState) (line : List Char) : Option PState :=
  if line = [] then some s
  else
    match skipWS line with
    | [] => some s
    | c :: r1 =>
      if c = ';' ∨ c = '#' then some s
      else if c = '[' then
        match parseGroupL (c :: r1) with
        | some g => some { doc := s.doc ++ [(g, [])], vmap := s.vmap }
        | none => none
      else if c = '{' then
        if s.doc = [] then some s
        else
          match parseListItemL s (c :: r1) with
          | some (v, _) => some { doc := addVarLast s.doc ([], v), vmap := s.vmap }
          | none => none
      else if isAlphaC c then
        if s.doc = [] then some s
        else
          match (parseKeyValueL s (c :: r1)).1 with
          | some v => some { doc := addVarLast s.doc v, vmap := v :: s.vmap }
          | none => none
      else none

/-- `OpenixCFG::loadFromStream` over a list of lines. -/
def parseLines : PState → List (List Char) → Option PState
  | s, [] => some s
  | s, l :: rest =>
    match lineStep s l with
    | some t => parseLines t rest
    | none => none

/-- Parse a whole document from lines, starting empty (`freeAll` runs
first). -/
def parseDoc (lines : List (List Char)) : Option PState :=
  parseLines ⟨[], []⟩ lines

/-! ## Serializer (`OpenixCFG::dumpToString`, `OpenixCFG.cpp:305`) -/

/-- The group name that selects hexadecimal number rendering. -/
def imageCfgName : List Char := "IMAGE_CFG".toList

/-- Rendering of one list child (`OpenixCFG.cpp:330`–`OpenixCFG.cpp:341`):
strings and references are followed by `", "`; numbers are followed by a
newline (`std::endl`) and no comma. -/
def dumpItem (gname : List Char) (it : List Char × CLeaf) : List Char :=
  match it.2 with
  | CLeaf.str s => it.1 ++ " = \"".toList ++ s ++ "\", ".toList
  | CLeaf.ref r => it.1 ++ " = ".toList ++ r ++ ", ".toList
  | CLeaf.num n =>
    if gname = imageCfgName then it.1 ++ " = 0x".toList ++ natToHex n ++ ['\n']
    else it.1 ++ " = ".toList ++ natToDec n ++ ['\n']

/-- Concatenate the renderings of all list children. -/
def dumpItems (gname : List Char) : List (List Char × CLeaf) → List Char
  | [] => []
  | it :: rest => dumpItem gname it ++ dumpItems gname rest

/-- Rendering of one variable (`OpenixCFG.cpp:317`–`OpenixCFG.cpp:344`):
numbers in the group `IMAGE_CFG` as `0x%x`, elsewhere decimal; strings
double-quoted; references bare; a list as `name={ … },` (the `=` present
exactly when the name is nonempty). -/
def dumpVar (gname : List Char) (v : CVar) : List Char :=
  match v.2 with
  | CVal.leaf (CLeaf.num n) =>
    if gname = imageCfgName then v.1 ++ " = 0x".toList ++ natToHex n ++ ['\n']
    else v.1 ++ " = ".toList ++ natToDec n ++ ['\n']
  | CVal.leaf (CLeaf.str s) => v.1 ++ " = \"".toList ++ s ++ "\"\n".toList
  | CVal.leaf (CLeaf.ref r) => v.1 ++ " = ".toList ++ r ++ ['\n']
  | CVal.lst items =>
    v.1 ++ (if v.1 = [] then [] else ['=']) ++ "\x7b ".toList ++
      dumpItems gname items ++ "\x7d,\n".toList

/-- Concatenate the renderings of a group's variables. -/
def dumpVars (gname : List Char) : List CVar → List Char
  | [] => []
  | v :: rest => dumpVar gname v ++ dumpVars gname rest

/-- Rendering of one group: `[name]`, the variables, then a blank line. -/
def dumpGroup (g : CGroup) : List Char :=
  '[' :: (g.1 ++ "]\n".toList) ++ dumpVars g.1 g.2 ++ ['\n']

/-- Concatenate the renderings of all groups. -/
def dumpGroups : Doc → List Char
  | [] => []
  | g :: rest => dumpGroup g ++ dumpGroups rest

/-- `OpenixCFG::dumpToString` (`OpenixCFG.cpp:305`): the placeholder text
when no group is loaded, otherwise all groups in order. -/
def dumpToStringCFG (d : Doc) : List Char :=
  if d = [] then "No configuration loaded.\n".toList else dumpGroups d

/-- Accumulating splitter for `getline` lines. -/
def splitNlAux : List Char → List Char → List (List Char)
  | [], acc => [acc.reverse]
  | c :: rest, acc =>
    if c = '\n' then
      acc.reverse :: (if rest = [] then [] else splitNlAux rest [])
    else splitNlAux rest (c :: acc)

/-- Split a character stream into `getline` lines: each `\n` ends a line; a
final fragment without `\n` is a line; empty input has no lines. -/
def splitNl (l : List Char) : List (List Char) :=
  if l = [] then [] else splitNlAux l []

/-- Join lines with a trailing `\n` on each. -/
def joinNl : List (List Char) → List Char
  | [] => []
  | l :: rest => l ++ '\n' :: joinNl rest

/-! ## Serializer output at line granularity -/

/-- The rendering of one variable without its terminating newline
(each branch of `dumpVar` ends in `std::endl`, except the list branch,
whose interior may contain further newlines for Number children). -/
def varLine (gname : List Char) (v : CVar) : List Char :=
  match v.2 with
  | CVal.leaf (CLeaf.num n) =>
    if gname = imageCfgName then v.1 ++ " = 0x".toList ++ natToHex n
    else v.1 ++ " = ".toList ++ natToDec n
  | CVal.leaf (CLeaf.str s) => v.1 ++ " = \"".toList ++ s ++ ['"']
  | CVal.leaf (CLeaf.ref r) => v.1 ++ " = ".toList ++ r
  | CVal.lst items =>
    v.1 ++ (if v.1 = [] then [] else ['=']) ++ "\x7b ".toList ++
      dumpItems gname items ++ "\x7d,".toList

/-- The lines of one serialized group: header, one line per variable, then
a blank line. -/
def groupLines (g : CGroup) : List (List Char) :=
  ('[' :: (g.1 ++ [']'])) :: (g.2.map (varLine g.1) ++ [[]])

/-- The lines of the whole serialized document. -/
def docLines : Doc → List (List Char)
  | [] => []
  | g :: rest => groupLines g ++ docLines rest

/-! ## The document fragment for the amended round-trip claim (C3) -/

/-- A group name in the amended round-trip fragment: nonempty, letters
only. -/
def goodGroupNameB (g : List Char) : Bool :=
  !g.isEmpty && g.all isAlphaC

/-- A variable (or list-child) name: nonempty, a letter first, then
alphanumerics and underscores. -/
def goodVarNameB : List Char → Bool
  | [] => false
  | c :: rest => isAlphaC c && rest.all identChar

/-- Names of the document's top-level leaf variables (the ones the parser
inserts into the flat `variableMap_`; anonymous list variables are not
inserted). -/
def topVarNames (d : Doc) : List (List Char) :=
  d.flatMap (fun g => g.2.filterMap (fun v =>
    match v.2 with
    | CVal.leaf _ => some v.1
    | CVal.lst _ => none))

/-- A leaf value in the fragment.  `gUpTo` are the names of the groups at
or before the current position, `allG` all group names of the document,
`allV` the names of all top-level leaf variables. -/
def goodLeafB (gUpTo allG allV : List (List Char)) : CLeaf → Bool
  | CLeaf.num n => decide (n < 4294967296)
  | CLeaf.str s =>
    s.all (fun c => !(c == '"' || c == '\\' || c == '\n')) && !(allG.contains s)
  | CLeaf.ref r =>
    goodVarNameB r && gUpTo.contains r && !(allV.contains r)

/-- A list child: a named leaf that is a String or Reference (Number
children break the one-line list rendering). -/
def goodItemB (gUpTo allG allV : List (List Char)) (it : List Char × CLeaf) : Bool :=
  goodVarNameB it.1 &&
    (match it.2 with
     | CLeaf.num _ => false
     | lf => goodLeafB gUpTo allG allV lf)

/-- A variable in the fragment: a named leaf, or an anonymous list of good
children. -/
def goodVarB (gUpTo allG allV : List (List Char)) (v : CVar) : Bool :=
  match v.2 with
  | CVal.leaf lf => goodVarNameB v.1 && goodLeafB gUpTo allG allV lf
  | CVal.lst items => v.1.isEmpty && items.all (goodItemB gUpTo allG allV)

/-- The fragment condition over a document, threading the group names seen
so far. -/
def goodGroupsB (allG allV : List (List Char)) :
    List (List Char) → Doc → Bool
  | _, [] => true
  | seen, g :: rest =>
    goodGroupNameB g.1 && g.2.all (goodVarB (seen ++ [g.1]) allG allV) &&
      goodGroupsB allG allV (seen ++ [g.1]) rest

/-- The amended round-trip fragment: a nonempty document of good groups. -/
def goodDocB (d : Doc) : Bool :=
  !d.isEmpty && goodGroupsB (d.map (fun g => g.1)) (topVarNames d) [] d

/-- The conditions under which one rendered list child re-parses to itself
in parser state `s` (used to state the list-loop round-trip lemma). -/
def ItemOk (s : PState) (it : List Char × CLeaf) : Prop :=
  (∃ c nm, it.1 = c :: nm ∧ isAlphaC c = true ∧ ∀ x ∈ it.1, identChar x = true) ∧
  (match it.2 with
   | CLeaf.str v => (∀ c ∈ v, c ≠ '"' ∧ c ≠ '\\') ∧ findGroupB s v = false
   | CLeaf.ref r => (∃ c cs, r = c :: cs ∧ isAlphaC c = true ∧
       (∀ x ∈ r, identChar x = true)) ∧ findVar s r = none ∧ findGroupB s r = true
   | CLeaf.num _ => False)

/-! ## Claim-stated definitions for C6 and C8, and concrete data -/

/-- Modelled from the claim's words (C6, as stated): a line is a fatal
parse error exactly when its first non-whitespace character is not `[`,
not `{`, not a letter, not a digit, and not a comment marker. -/
def fatalClaimedC6 (l : List Char) : Bool :=
  match l.dropWhile isSpaceC with
  | [] => false
  | c :: _ =>
    !(c == '[' || c == '{' || isAlphaC c || isDigitC c || c == ';' || c == '#')

/-- Modelled from the claim's words (C8, as stated): identical rendering
except that a named list is emitted as `name{ … },` with no `=` between the
name and the brace. -/
def dumpVarClaimed (gname : List Char) (v : CVar) : List Char :=
  match v.2 with
  | CVal.lst items => v.1 ++ "\x7b ".toList ++ dumpItems gname items ++ "\x7d,\n".toList
  | _ => dumpVar gname v

/-- Claim-stated document rendering for C8. -/
def dumpToStringClaimed (d : Doc) : List Char :=
  if d = [] then "No configuration loaded.\n".toList
  else (d.map (fun g =>
    '[' :: (g.1 ++ "]\n".toList) ++
      (g.2.map (dumpVarClaimed g.1)).flatten ++ ['\n'])).flatten

/-- Amended rendering for C8 (spec side): the same text as the source
serializer, organized as a per-kind format table joined with `map` and
`flatten`. -/
def renderLeafSpec (hexMode : Bool) (name : List Char) : CLeaf → List Char
  | CLeaf.num n =>
    name ++ " = ".toList ++ (if hexMode then '0' :: 'x' :: natToHex n else natToDec n)
  | CLeaf.str v => name ++ " = \"".toList ++ v ++ ['"']
  | CLeaf.ref r => name ++ " = ".toList ++ r

/-- Amended rendering of a list child: Strings and References are followed
by `", "`, Numbers by a newline. -/
def renderItemSpec (hexMode : Bool) (it : List Char × CLeaf) : List Char :=
  match it.2 with
  | CLeaf.num _ => renderLeafSpec hexMode it.1 it.2 ++ ['\n']
  | _ => renderLeafSpec hexMode it.1 it.2 ++ [',', ' ']

/-- Amended rendering of a variable. -/
def renderVarSpec (hexMode : Bool) (v : CVar) : List Char :=
  match v.2 with
  | CVal.leaf lf => renderLeafSpec hexMode v.1 lf ++ ['\n']
  | CVal.lst items =>
    (if v.1.isEmpty then [] else v.1 ++ ['=']) ++ "\x7b ".toList ++
      (items.map (renderItemSpec hexMode)).flatten ++ "\x7d,\n".toList

/-- Amended rendering of a group. -/
def renderGroupSpec (g : CGroup) : List Char :=
  "[".toList ++ g.1 ++ "]\n".toList ++
    (g.2.map (renderVarSpec (decide (g.1 = imageCfgName)))).flatten ++ "\n".toList

/-- Amended rendering of a document. -/
def renderDocSpec (d : Doc) : List Char :=
  if d.isEmpty then "No configuration loaded.\n".toList
  else (d.map renderGroupSpec).flatten

/-- Concrete counterexample input for C3: a string value with an escaped
quote, `x = "a\"b"`. -/
def cexLinesC3 : List (List Char) :=
  ["[G]".toList, "x = \"a\\\"b\"".toList]

/-- The document the parser produces from `cexLinesC3`. -/
def cexDocC3 : Doc :=
  [("G".toList, [("x".toList, CVal.leaf (CLeaf.str ['a', '"', 'b']))])]

/-- A concrete document in the amended round-trip fragment, exercising all
four variable kinds. -/
def goodDocWitness : Doc :=
  [("DIRDEF".toList, [("INPUTDIR".toList, CVal.leaf (CLeaf.str "ab".toList))]),
   ("FILELIST".toList,
     [([], CVal.lst [("filename".toList, CLeaf.str "bootfex".toList),
                     ("dir".toList, CLeaf.ref "DIRDEF".toList)])]),
   ("IMGCFG".toList, [("version".toList, CVal.leaf (CLeaf.num 1049140)),
                      ("fl".toList, CVal.leaf (CLeaf.ref "FILELIST".toList))])]

/-- Concrete counterexample document for C8: a named list variable. -/
def cexDocC8 : Doc :=
  [("G".toList, [("l".toList, CVal.lst [("k".toList, CLeaf.str "v".toList)])])]

end OpenixCFG

namespace OpenixPartition

/-! ## `sys_partition.fex` parser (`OpenixPartition.cpp`) -/

/-- A partition record (`OpenixPartition.hpp`); missing fields default to
zero/empty/false. -/
structure Partition where
  name : List Char := []
  size : Nat := 0
  downloadfile : List Char := []
  user_type : Nat := 0
  keydata : Bool := false
  encrypt : Bool := false
  verify : Bool := false
  ro : Bool := false
  deriving DecidableEq, Repr

/-- A fresh partition record with all fields defaulted. -/
def emptyPartition : Partition := {}

/-- The parsed table: MBR size plus ordered partitions. -/
structure PartTable where
  mbrSize : Nat
  partitions : List Partition
  deriving DecidableEq, Repr

/-- `OpenixPartition::skipWhitespace` (space, tab, carriage return). -/
def partSpace (c : Char) : Bool := c == ' ' || c == '\t' || c == '\r'

/-- Advance over whitespace. -/
def partSkipWS (l : List Char) : List Char := l.dropWhile partSpace

/-- `OpenixPartition::parseIdentifier` characters: alphanumeric plus
`_ - . / \ : # ( )`. -/
def partIdentChar (c : Char) : Bool :=
  OpenixCFG.isAlnumC c || c == '_' || c == '-' || c == '.' || c == '/' ||
    c == '\\' || c == ':' || c == '#' || c == '(' || c == ')'

/-- `OpenixPartition::parseIdentifier`. -/
def partIdent (l : List Char) : List Char × List Char :=
  (l.takeWhile partIdentChar, l.dropWhile partIdentChar)

/-- `OpenixPartition::parseString`: a `"`-delimited string, backslash
escaping the next character; scanning matches the config parser's string
body. -/
def partStringP (l : List Char) : List Char × List Char :=
  match l with
  | '"' :: rest => OpenixCFG.parseStringBody '"' rest
  | _ => ([], l)

/-- The 64-bit wrap of `uint64_t` accumulation. -/
def u64Mod : Nat := 18446744073709551616

/-- The digit-accumulation loops of `OpenixPartition::parseNumber`, with
`uint64_t` wrap-around at each step. -/
def partDigits (p : Char → Bool) (v : Char → Nat) (base : Nat) :
    List Char → Nat → Nat × List Char
  | [], acc => (acc, [])
  | c :: rest, acc =>
    if p c then partDigits p v base rest ((acc * base + v c) % u64Mod)
    else (acc, c :: rest)

/-- `OpenixPartition::parseNumber` (`OpenixPartition.cpp:335`): skip
whitespace; `0x`/`0X` selects hexadecimal (even with no digits after),
otherwise decimal digits; returns the `uint64_t` value and the rest. -/
def partNumber (l : List Char) : Nat × List Char :=
  let l1 := partSkipWS l
  if l1.head? = some '0' ∧ (l1.tail.head? = some 'x' ∨ l1.tail.head? = some 'X') then
    partDigits OpenixCFG.isHexC OpenixCFG.hexVal 16 (l1.tail.tail) 0
  else
    partDigits OpenixCFG.isDigitC OpenixCFG.hexVal 10 l1 0

/-- `OpenixPartition::parseLine` (`OpenixPartition.cpp:234`): `key = value`
dispatch into the current partition record; unknown keys are ignored. -/
def partParseLine (l : List Char) (p : Partition) : Partition :=
  let l1 := partSkipWS l
  if l1 = [] then p
  else
    let key := (partIdent l1).1
    let l2 := (partIdent l1).2
    if key = [] then p
    else
      match partSkipWS l2 with
      | '=' :: l4 =>
        let l5 := partSkipWS l4
        if l5 = [] then p
        else if key = "name".toList then { p with name := (partIdent l5).1 }
        else if key = "size".toList then { p with size := (partNumber l5).1 }
        else if key = "downloadfile".toList then
          (if l5.head? = some '"' then { p with downloadfile := (partStringP l5).1 }
           else { p with downloadfile := (partIdent l5).1 })
        else if key = "user_type".toList then
          { p with user_type := (partNumber l5).1 % 4294967296 }
        else if key = "keydata".toList then { p with keydata := (partNumber l5).1 != 0 }
        else if key = "encrypt".toList then { p with encrypt := (partNumber l5).1 != 0 }
        else if key = "verify".toList then { p with verify := (partNumber l5).1 != 0 }
        else if key = "ro".toList then { p with ro := (partNumber l5).1 != 0 }
        else p
      | _ => p

/-- Trim leading and trailing ` \t\r` from a line
(`OpenixPartition.cpp:53`). -/
def trimLine (l : List Char) : List Char :=
  ((l.dropWhile partSpace).reverse.dropWhile partSpace).reverse

/-- Substring search for `"name"` (`line.find("name") != npos`). -/
def hasNameSub : List Char → Bool
  | [] => false
  | c :: rest =>
    decide ((c :: rest).take 4 = "name".toList) || hasNameSub rest

/-- The parser state of `parseFromStream`. -/
structure PartParseState where
  inMbr : Bool
  inPart : Bool
  mbrSize : Nat
  current : Partition
  parts : List Partition
  deriving Repr

/-- The `[mbr]`-section line handler: `size = <number>` stores the value
(cast to `uint32_t`) in `mbr_size`. -/
def mbrStep (st : PartParseState) (line : List Char) : PartParseState :=
  let l1 := partSkipWS line
  if l1.take 4 = "size".toList then
    let l2 := partSkipWS (l1.drop 4)
    match l2 with
    | '=' :: l3 =>
      let l4 := partSkipWS l3
      if l4 = [] then st else { st with mbrSize := (partNumber l4).1 % 4294967296 }
    | _ => st
  else st

/-- One line of `OpenixPartition::parseFromStream`
(`OpenixPartition.cpp:51`–`OpenixPartition.cpp:119`). -/
def partLineStep (st : PartParseState) (raw : List Char) : PartParseState :=
  let line := trimLine raw
  if line = [] then st
  else if line.head? = some ';' then st
  else if line.take 2 = "//".toList then st
  else if line = "[partition_start]".toList then { st with inPart := true, inMbr := false }
  else if line = "[mbr]".toList then { st with inMbr := true, inPart := false }
  else if line = "[partition]".toList then
    let parts2 := if st.current.name ≠ [] then st.parts ++ [st.current] else st.parts
    { st with inMbr := false, inPart := true, parts := parts2, current := emptyPartition }
  else
    let st1 := if st.inMbr then mbrStep st line else st
    let st2 := if st1.inPart ∧ st1.current.name ≠ [] then
        { st1 with current := partParseLine line st1.current } else st1
    if st2.inPart ∧ st2.current.name = [] ∧ hasNameSub line then
      { st2 with current := partParseLine line st2.current } else st2

/-- `OpenixPartition::parseFromStream` over a list of lines; the function
always reports success, and at end of input a pending named partition is
flushed. -/
def parseFromLines (lines : List (List Char)) : PartTable :=
  let f := lines.foldl partLineStep
    { inMbr := false, inPart := false, mbrSize := 0, current := emptyPartition,
      parts := [] }
  { mbrSize := f.mbrSize,
    partitions := (if f.inPart ∧ f.current.name ≠ [] then f.parts ++ [f.current]
      else f.parts) }

end OpenixPartition

namespace OpenixIMG

/-! ## Region-decryption lemmas -/

theorem rc6_trunc (D : BlockFn) (b : Nat → Nat) (off len : Nat) :
    rc6DecryptRegion D b off (16 * (len / 16)) = rc6DecryptRegion D b off len := by
  funext j
  simp only [rc6DecryptRegion,
    Nat.mul_div_cancel_left (len / 16) (by norm_num : (0 : Nat) < 16)]

theorem rc6_frame (D : BlockFn) (b : Nat → Nat) (off len j : Nat)
    (h : ¬(off ≤ j ∧ j < off + 16 * (len / 16))) :
    rc6DecryptRegion D b off len j = b j := by
  simp only [rc6DecryptRegion]
  exact if_neg h

theorem rc6_frame_lt (D : BlockFn) (b : Nat → Nat) (off len j : Nat)
    (h : j < off) : rc6DecryptRegion D b off len j = b j :=
  rc6_frame D b off len j (by omega)

theorem readLE32_agree (b1 b2 : Nat → Nat) (off bound : Nat)
    (hagree : ∀ j, j < bound → b1 j = b2 j) (h : off + 3 < bound) :
    readLE32 b1 off = readLE32 b2 off := by
  simp only [readLE32]
  rw [hagree off (by omega), hagree (off + 1) (by omega),
    hagree (off + 2) (by omega), hagree (off + 3) (by omega)]

theorem contentStep_cond_false (Dfc : BlockFn) (ver3 : Bool)
    (st : (Nat → Nat) × Nat) (i : Nat) :
    contentStep Dfc ver3 false st i = st := by
  simp [contentStep]

theorem contentAux_cond_false (Dfc : BlockFn) (ver3 : Bool) :
    ∀ (cnt i : Nat) (st : (Nat → Nat) × Nat),
      contentAux Dfc ver3 false i cnt st = st := by
  intro cnt
  induction cnt with
  | zero => intro i st; rfl
  | succ c ih =>
    intro i st
    show contentAux Dfc ver3 false (i + 1) c (contentStep Dfc ver3 false st i) = st
    rw [contentStep_cond_false]
    exact ih (i + 1) st

theorem storedLenOff_lt (ver3 : Bool) (idx n : Nat) (h : idx < n) :
    storedLenOff ver3 idx + 3 < 1024 + n * 1024 := by
  cases ver3 <;> simp [storedLenOff] <;> omega

/-- The heart of the amended C1: the file-content loop, which reads each
`stored_length` from the live buffer, computes the same final buffer as
first computing all content regions from the decrypted file-header table
`b2` and then decrypting them, because the running cursor never re-enters
the header area `[0, bound)`. -/
theorem contentAux_eq_regionFold (Dfc : BlockFn) (ver3 : Bool)
    (b2 : Nat → Nat) (bound : Nat) :
    ∀ (cnt i p : Nat) (buf : Nat → Nat),
      (∀ j, j < bound → buf j = b2 j) →
      bound ≤ p →
      (∀ idx, i ≤ idx → idx < i + cnt → storedLenOff ver3 idx + 3 < bound) →
      (contentAux Dfc ver3 true i cnt (buf, p)).1 =
        (contentRegionsAux b2 ver3 i cnt p).foldl
          (fun b r => rc6DecryptRegion Dfc b r.1 r.2) buf := by
  intro cnt
  induction cnt with
  | zero => intro i p buf _ _ _; rfl
  | succ c ih =>
    intro i p buf hagr hp hidx
    have hread : readLE32 buf (storedLenOff ver3 i) = readLE32 b2 (storedLenOff ver3 i) :=
      readLE32_agree buf b2 _ bound hagr (hidx i le_rfl (by omega))
    have hstep : contentStep Dfc ver3 true (buf, p) i =
        (rc6DecryptRegion Dfc buf p
            (16 * (readLE32 b2 (storedLenOff ver3 i) / 16)),
          p + 16 * (readLE32 b2 (storedLenOff ver3 i) / 16)) := by
      simp only [contentStep, hread, if_pos]
      rw [rc6_trunc]
    show (contentAux Dfc ver3 true (i + 1) c (contentStep Dfc ver3 true (buf, p) i)).1 = _
    rw [hstep]
    have hregions : contentRegionsAux b2 ver3 i (c + 1) p =
        (p, 16 * (readLE32 b2 (storedLenOff ver3 i) / 16)) ::
          contentRegionsAux b2 ver3 (i + 1) c
            (p + 16 * (readLE32 b2 (storedLenOff ver3 i) / 16)) := rfl
    rw [hregions, List.foldl_cons]
    exact ih (i + 1) (p + 16 * (readLE32 b2 (storedLenOff ver3 i) / 16))
      (rc6DecryptRegion Dfc buf p (16 * (readLE32 b2 (storedLenOff ver3 i) / 16)))
      (fun j hj => by rw [rc6_frame_lt Dfc buf p _ j (by omega)]; exact hagr j hj)
      (by omega)
      (fun idx h1 h2 => hidx idx (by omega) (by omega))

theorem regionFold_frame (Dfc : BlockFn) :
    ∀ (rs : List (Nat × Nat)) (b : Nat → Nat) (j : Nat),
      (∀ r ∈ rs, ¬(r.1 ≤ j ∧ j < r.1 + r.2)) →
      (rs.foldl (fun b r => rc6DecryptRegion Dfc b r.1 r.2) b) j = b j := by
  intro rs
  induction rs with
  | nil => intro b j _; rfl
  | cons r rest ih =>
    intro b j h
    have h1 := h r (List.mem_cons_self r rest)
    have h2 := ih (rc6DecryptRegion Dfc b r.1 r.2) j
      (fun x hx => h x (List.mem_cons_of_mem r hx))
    rw [List.foldl_cons, h2, rc6_frame]
    intro hc
    apply h1
    refine ⟨hc.1, ?_⟩
    have hle : r.2 / 16 * 16 ≤ r.2 := Nat.div_mul_le_self r.2 16
    omega

/-- When the magic matches on initial read, the load path leaves every byte
of the buffer unchanged (regardless of the encryption-enabled flag). -/
theorem loadImageBuf_magic_match (Dh Dfh Dfc : BlockFn) (enc : Bool)
    (buf : Nat → Nat) (hmm : magicMismatch buf = false) :
    loadImageBuf Dh Dfh Dfc enc buf = buf := by
  simp only [loadImageBuf, contentPass, hmm, Bool.false_and, Bool.false_eq_true,
    if_false]
  rw [contentAux_cond_false]

/-- For an encrypted read with encryption enabled, the load-path buffer
transformation equals the amended-claim description: three decryption
passes whose content regions are computed from the decrypted file-header
table. -/
theorem loadImageBuf_eq_amended (Dh Dfh Dfc : BlockFn) (buf : Nat → Nat)
    (hmm : magicMismatch buf = true) :
    loadImageBuf Dh Dfh Dfc true buf = loadImageBufAmended Dh Dfh Dfc buf := by
  simp only [loadImageBuf, loadImageBufAmended, contentPass, hmm, Bool.and_true,
    if_true]
  exact contentAux_eq_regionFold Dfc _ _ _ _ 0 _ _ (fun j _ => rfl) le_rfl
    (fun idx h1 h2 => storedLenOff_lt _ idx _ (by omega))

/-- For an encrypted read, bytes outside the three decrypted regions are
unchanged by the load path. -/
theorem loadImageBuf_frame (Dh Dfh Dfc : BlockFn) (buf : Nat → Nat) (j : Nat)
    (hmm : magicMismatch buf = true)
    (hj : ∀ r ∈ decryptedRegions Dh Dfh buf, ¬(r.1 ≤ j ∧ j < r.1 + r.2)) :
    loadImageBuf Dh Dfh Dfc true buf j = buf j := by
  rw [loadImageBuf_eq_amended Dh Dfh Dfc buf hmm]
  simp only [loadImageBufAmended, hmm, if_true]
  simp only [decryptedRegions] at hj
  have h0 := hj (0, 1024) (by simp)
  have h1 := hj (1024, numFilesOf (rc6DecryptRegion Dh buf 0 1024) * 1024) (by simp)
  have htail : ∀ r ∈ contentRegionsAux
      (rc6DecryptRegion Dfh (rc6DecryptRegion Dh buf 0 1024) 1024
        (numFilesOf (rc6DecryptRegion Dh buf 0 1024) * 1024))
      (isV3 (rc6DecryptRegion Dh buf 0 1024)) 0
      (numFilesOf (rc6DecryptRegion Dh buf 0 1024))
      (1024 + numFilesOf (rc6DecryptRegion Dh buf 0 1024) * 1024),
      ¬(r.1 ≤ j ∧ j < r.1 + r.2) := by
    intro r hr
    exact hj r (by simp [hr])
  rw [regionFold_frame Dfc _ _ j htail]
  rw [rc6_frame Dfh _ 1024 _ j (by
    intro hc
    apply h1
    refine ⟨hc.1, ?_⟩
    have : 16 * (numFilesOf (rc6DecryptRegion Dh buf 0 1024) * 1024 / 16) =
        numFilesOf (rc6DecryptRegion Dh buf 0 1024) * 1024 := by omega
    omega)]
  rw [rc6_frame Dh _ 0 1024 j (by
    intro hc
    exact h0 ⟨hc.1, by norm_num at hc ⊢; omega⟩)]

/-! ## Lemmas for the filename accessor (C4) -/

theorem mkFileInfo_filename (buf : Nat → Nat) (ver3 : Bool) (i : Nat) :
    (mkFileInfo buf ver3 i).filename = cleanFilenameSrc buf ver3 i := by
  cases ver3 <;> rfl

theorem findAux_eq_lookupSpec (buf : Nat → Nat) (ver3 : Bool) (name : List Nat) :
    ∀ (cnt i : Nat),
      (match (fileListAux buf ver3 i cnt).find? (fun fi => fi.filename == name) with
       | some fi => some (sliceBytes buf fi.offset fi.originalLength)
       | none => none) = lookupSpecAux buf ver3 name i cnt := by
  intro cnt
  induction cnt with
  | zero => intro i; rfl
  | succ c ih =>
    intro i
    have hcons : fileListAux buf ver3 i (c + 1) =
        mkFileInfo buf ver3 i :: fileListAux buf ver3 (i + 1) c := rfl
    rw [hcons]
    by_cases h : cleanFilenameSrc buf ver3 i = name
    · rw [List.find?_cons_of_pos _ (by rw [mkFileInfo_filename]; exact beq_iff_eq.mpr h)]
      show some (sliceBytes buf (mkFileInfo buf ver3 i).offset
        (mkFileInfo buf ver3 i).originalLength) = _
      simp only [lookupSpecAux, if_pos h]
      cases ver3 <;> rfl
    · rw [List.find?_cons_of_neg _ (by rw [mkFileInfo_filename]; simp [h])]
      simp only [lookupSpecAux, if_neg h]
      exact ih (i + 1)

/-! ## Claim theorems for the container codec -/

/-- C1 (amended).  For every load with encryption support enabled: the
in-memory buffer transformation of `loadImage` equals the amended-claim
description `loadImageBufAmended` — decrypt `[0,1024)` with the header
context, `[1024, 1024 + n·1024)` with the file-headers context (with `n`
read from the v3 slot when `header_version = 0x0300` and the v1 slot
otherwise, after header decryption), then for each file in header order the
next `16·⌊stored_length_i/16⌋` bytes with the file-content context, the
cursor advancing by that amount (which equals `stored_length_i` whenever
`stored_length_i` is a multiple of 16); no byte outside those regions is
modified; and an image whose first 8 bytes equal the magic is not modified
at all. -/
theorem c1_load_decrypts_three_regions (Dh Dfh Dfc : BlockFn) (buf : Nat → Nat) :
    loadImageBuf Dh Dfh Dfc true buf = loadImageBufAmended Dh Dfh Dfc buf ∧
    (magicMismatch buf = true →
      ∀ j, (∀ r ∈ decryptedRegions Dh Dfh buf, ¬(r.1 ≤ j ∧ j < r.1 + r.2)) →
        loadImageBuf Dh Dfh Dfc true buf j = buf j) ∧
    (magicMismatch buf = false →
      ∀ enc, loadImageBuf Dh Dfh Dfc enc buf = buf) := by
  refine ⟨?_, fun hmm j hj => loadImageBuf_frame Dh Dfh Dfc buf j hmm hj,
    fun hmm enc => loadImageBuf_magic_match Dh Dfh Dfc enc buf hmm⟩
  cases hmm : magicMismatch buf
  · rw [loadImageBuf_magic_match Dh Dfh Dfc true buf hmm]
    simp [loadImageBufAmended, hmm]
  · exact loadImageBuf_eq_amended Dh Dfh Dfc buf hmm

/-- Witness for C1: the frame part applied at buffer `encBufC1` and byte
5000 (outside every decrypted region), and the magic-match part applied at
the unencrypted image `plainImgBuf`. -/
theorem c1_load_decrypts_three_regions_witness :
    loadImageBuf compBlock compBlock compBlock true encBufC1 5000 = encBufC1 5000 ∧
    loadImageBuf compBlock compBlock compBlock false plainImgBuf = plainImgBuf :=
  ⟨(c1_load_decrypts_three_regions compBlock compBlock compBlock encBufC1).2.1
      (by decide) 5000 (by decide),
   (c1_load_decrypts_three_regions compBlock compBlock compBlock plainImgBuf).2.2
      (by decide) false⟩

/-- Counterexample for C1 as stated: with `stored_length_0 = 8` (not a
multiple of 16) the code's content cursor advances by
`16·⌊8/16⌋ = 0` bytes, not by 8 as the claim states, so byte 3088 of the
buffer ends up encrypted where the claim's description decrypts it. -/
theorem c1_counterexample :
    loadImageBuf compBlock compBlock compBlock true encBufC1 3088 ≠
      loadImageBufClaimed compBlock compBlock compBlock encBufC1 3088 := by
  decide

/-- C2 (code-bug evidence).  After a successful load, a failing re-load
(missing path, or a zero-length file) returns `false` but leaves
`imageLoaded_` set: `isImageLoaded()` still reports `true`, contradicting
the specified "fatal … must leave the container in the not loaded
state". The flag is reset only in the `catch` handler
(`OpenixIMGFile.cpp:151`), not on the early `return false` paths
(`OpenixIMGFile.cpp:55`, `OpenixIMGFile.cpp:62`). -/
theorem c2_failed_load_keeps_loaded_flag :
    (loadImage compBlock compBlock compBlock compBlock fsImg initIMGState "img").1
        = true ∧
    (loadImage compBlock compBlock compBlock compBlock fsImg initIMGState
        "img").2.imageLoaded = true ∧
    (loadImage compBlock compBlock compBlock compBlock fsImg
      (loadImage compBlock compBlock compBlock compBlock fsImg initIMGState "img").2
      "missing").1 = false ∧
    (loadImage compBlock compBlock compBlock compBlock fsImg
      (loadImage compBlock compBlock compBlock compBlock fsImg initIMGState "img").2
      "missing").2.imageLoaded = true ∧
    (loadImage compBlock compBlock compBlock compBlock fsImg
      (loadImage compBlock compBlock compBlock compBlock fsImg initIMGState "img").2
      "empty").1 = false ∧
    (loadImage compBlock compBlock compBlock compBlock fsImg
      (loadImage compBlock compBlock compBlock compBlock fsImg initIMGState "img").2
      "empty").2.imageLoaded = true := by
  exact ⟨by decide, by decide, by decide, by decide, by decide, by decide⟩

/-- C4 (amended).  For every loaded container whose file index was built by
`loadFileList` over its buffer, the filename-keyed accessor returns exactly
what the spec-side scan `lookupDataSpec` returns: the first entry in header
order whose cleaned filename — the 256-byte field truncated at the first
NUL, then stripped of trailing ASCII whitespace — equals the query, with a
fresh copy of the `original_length` bytes at that entry's `offset`; absent
(not an error) when no entry matches. -/
theorem c4_filename_accessor (s : IMGState) (ver3 : Bool) (n : Nat)
    (hl : s.imageLoaded = true)
    (hfl : s.fileList = loadFileList s.imageData ver3 n) :
    ∀ name, getFileDataByFilename s name =
      lookupDataSpec s.imageData ver3 n name := by
  intro name
  simp only [getFileDataByFilename, hl, if_true, hfl, loadFileList, lookupDataSpec]
  exact findAux_eq_lookupSpec s.imageData ver3 name n 0

/-- Witness for C4: the accessor applied to the loaded test image and the
query `"a"` (byte 97). -/
theorem c4_filename_accessor_witness :
    getFileDataByFilename
        (loadImage compBlock compBlock compBlock compBlock fsImg initIMGState "img").2
        [97] =
      lookupDataSpec
        (loadImage compBlock compBlock compBlock compBlock fsImg initIMGState
          "img").2.imageData false 1 [97] :=
  c4_filename_accessor _ false 1 (by decide) (by decide) [97]

/-- Counterexample for C4 as stated: the claim's "cleaned filename" strips
only trailing NULs and whitespace from the 256-byte field.  On a filename
field `'a', NUL, 'b', NUL…` the code truncates at the first NUL and finds
the file under the name `"a"`, while the claim-stated cleaning yields
`"a", NUL, "b"` and says the query `"a"` must be absent. -/
theorem c4_counterexample :
    getFileDataByFilename
        (loadImage compBlock compBlock compBlock compBlock fsImg initIMGState "img").2
        [97] ≠
      lookupDataClaimed plainImgBuf false 1 [97] := by
  decide

/-- C5.  The key schedule of `initializeCrypto`: the header RC6 key is 31
zero bytes then `'i'` (0x69); the file-headers key 31 bytes of 0x01 then
`'m'` (0x6D); the file-content key 31 bytes of 0x02 then `'g'` (0x67); each
is 32 bytes (256 bits).  The Twofish-256 key equals the claimed recurrence
`k[0]=5, k[1]=4, k[i]=k[i-1]+k[i-2] mod 256`, and the Twofish context is
never invoked by the load/decrypt path: `loadImage` is independent of the
Twofish block primitive. -/
theorem c5_key_schedule :
    headerKeyBytes = List.replicate 31 0 ++ [105] ∧
    fileHeadersKeyBytes = List.replicate 31 1 ++ [109] ∧
    fileContentKeyBytes = List.replicate 31 2 ++ [103] ∧
    headerKeyBytes.length = 32 ∧ fileHeadersKeyBytes.length = 32 ∧
    fileContentKeyBytes.length = 32 ∧
    twofishKeyBytes = (List.range 32).map twofishKeyByteClaimed ∧
    (∀ (Dh Dfh Dfc tf tf' : BlockFn) (fs : FS) (s : IMGState) (p : String),
      loadImage Dh Dfh Dfc tf fs s p = loadImage Dh Dfh Dfc tf' fs s p) := by
  refine ⟨by decide, by decide, by decide, by decide, by decide, by decide,
    by decide, ?_⟩
  intro Dh Dfh Dfc tf tf' fs s p
  rfl

/-- C10.  `decryptImage` is a `const` method: whether it succeeds or fails,
the resulting object state — image buffer, parsed header, loaded flag,
stored path, encryption flags — is the incoming state unchanged; all
decryption work happens on the private copy whose encrypted regions are
re-read from the source path. -/
theorem c10_decrypt_image_state_frame (Dh Dfh Dfc : BlockFn) (fs : FS)
    (s : PackerState) (out : String) :
    (decryptImage Dh Dfh Dfc fs s out).2.2 = s := by
  unfold decryptImage
  repeat' (first | split | dsimp only)

end OpenixIMG

namespace OpenixCFG

/-! ## Character-class facts -/

theorem not_space_of_range {c : Char} (h : 33 ≤ c.toNat) : isSpaceC c = false := by
  rw [Bool.eq_false_iff]
  intro hs
  simp only [isSpaceC, Bool.or_eq_true, Bool.and_eq_true, decide_eq_true_eq,
    beq_iff_eq] at hs
  omega

theorem identChar_not_space {c : Char} (h : identChar c = true) :
    isSpaceC c = false := by
  simp only [identChar, isAlnumC, isAlphaC, isDigitC, Bool.or_eq_true,
    Bool.and_eq_true, decide_eq_true_eq, beq_iff_eq] at h
  rcases h with ((h | h) | h) | h
  · exact not_space_of_range (by omega)
  · exact not_space_of_range (by omega)
  · exact not_space_of_range (by omega)
  · rw [h]; decide

theorem alpha_ident {c : Char} (h : isAlphaC c = true) : identChar c = true := by
  simp only [identChar, isAlnumC, Bool.or_eq_true]
  exact Or.inl (Or.inl h)

theorem digit_ident {c : Char} (h : isDigitC c = true) : identChar c = true := by
  simp only [identChar, isAlnumC, Bool.or_eq_true]
  exact Or.inl (Or.inr h)

theorem identChar_ne_of {c : Char} (h : identChar c = true) (d : Char)
    (hd : identChar d = false) : c ≠ d := by
  intro he
  rw [he] at h
  rw [h] at hd
  cases hd

theorem digit_not_space {c : Char} (h : isDigitC c = true) : isSpaceC c = false := by
  simp only [isDigitC, Bool.and_eq_true, decide_eq_true_eq] at h
  exact not_space_of_range (by omega)

theorem digit_ne {c : Char} (h : isDigitC c = true) (d : Char)
    (hd : isDigitC d = false) : c ≠ d := by
  intro he
  rw [he] at h
  rw [h] at hd
  cases hd

/-! ## Scanning lemmas -/

theorem dropWhile_false_head {p : Char → Bool} :
    ∀ (l : List Char), (∀ c, l.head? = some c → p c = false) →
      l.dropWhile p = l
  | [], _ => rfl
  | c :: r, h => by
    rw [List.dropWhile_cons, h c rfl]
    simp

theorem skipWS_head {c : Char} (r : List Char) (h1 : isSpaceC c = false)
    (h2 : c ≠ ';') : skipWS (c :: r) = c :: r := by
  simp only [skipWS, List.dropWhile_cons, h1]
  simp [h2]

theorem takeWhile_all_append {p : Char → Bool} :
    ∀ (a b : List Char), (∀ c ∈ a, p c = true) →
      (∀ c, b.head? = some c → p c = false) →
      (a ++ b).takeWhile p = a ∧ (a ++ b).dropWhile p = b := by
  intro a
  induction a with
  | nil =>
    intro b _ hb
    constructor
    · cases b with
      | nil => rfl
      | cons c r => simp [List.takeWhile_cons, hb c rfl]
    · exact dropWhile_false_head b hb
  | cons c a ih =>
    intro b ha hb
    have hc : p c = true := ha c (List.mem_cons_self c a)
    have := ih b (fun x hx => ha x (List.mem_cons_of_mem c hx)) hb
    constructor
    · simp only [List.cons_append, List.takeWhile_cons, hc, if_true, this.1]
    · simp only [List.cons_append, List.dropWhile_cons, hc, if_true, this.2]

theorem parseIdent_exact {c : Char} (a b : List Char)
    (hc : identChar c = true) (ha : ∀ x ∈ a, identChar x = true)
    (hb : ∀ x, b.head? = some x → identChar x = false) :
    parseIdent ((c :: a) ++ b) = (c :: a, b) := by
  have hcs : isSpaceC c = false := identChar_not_space hc
  have hcsemi : c ≠ ';' := identChar_ne_of hc ';' (by decide)
  have hcdot : c ≠ '.' := identChar_ne_of hc '.' (by decide)
  have hall : ∀ x ∈ c :: a, identChar x = true := by
    intro x hx
    rcases List.mem_cons.mp hx with h | h
    · rw [h]; exact hc
    · exact ha x h
  have hsk : skipWS ((c :: a) ++ b) = c :: (a ++ b) := by
    have := skipWS_head (a ++ b) hcs hcsemi
    simpa using this
  have htd := takeWhile_all_append (c :: a) b hall hb
  have h1 := htd.1
  have h2 := htd.2
  simp only [List.cons_append] at h1 h2
  simp only [parseIdent, hsk, List.head?_cons, Option.some.injEq]
  rw [if_neg hcdot, h1, h2]

theorem parseStringBody_exact :
    ∀ (s r : List Char), (∀ c ∈ s, c ≠ '"' ∧ c ≠ '\\') →
      parseStringBody '"' ((s ++ ['"']) ++ r) = (s, r) := by
  intro s
  induction s with
  | nil =>
    intro r _
    show parseStringBody '"' ('"' :: r) = ([], r)
    rw [parseStringBody.eq_def]
    simp
  | cons c s ih =>
    intro r h
    have hc := h c (List.mem_cons_self c s)
    show parseStringBody '"' (c :: ((s ++ ['"']) ++ r)) = (c :: s, r)
    rw [parseStringBody.eq_def]
    simp only [if_neg hc.1, if_neg hc.2]
    rw [ih r (fun x hx => h x (List.mem_cons_of_mem c hx))]

/-! ## Decimal and hexadecimal printing and re-parsing -/

theorem decDigitChar_facts :
    ∀ k, k < 10 → isDigitC (decDigitChar k) = true ∧ hexVal (decDigitChar k) = k ∧
      identChar (decDigitChar k) = true := by decide

theorem hexDigitChar_facts :
    ∀ k, k < 16 → isHexC (hexDigitChar k) = true ∧ hexVal (hexDigitChar k) = k ∧
      identChar (hexDigitChar k) = true := by decide

theorem natToDec_lt {n : Nat} (h : n < 10) : natToDec n = [decDigitChar n] := by
  rw [natToDec]
  simp [h]

theorem natToDec_ge {n : Nat} (h : ¬n < 10) :
    natToDec n = natToDec (n / 10) ++ [decDigitChar (n % 10)] := by
  conv_lhs => rw [natToDec]
  simp [h]

theorem natToHex_lt {n : Nat} (h : n < 16) : natToHex n = [hexDigitChar n] := by
  rw [natToHex]
  simp [h]

theorem natToHex_ge {n : Nat} (h : ¬n < 16) :
    natToHex n = natToHex (n / 16) ++ [hexDigitChar (n % 16)] := by
  conv_lhs => rw [natToHex]
  simp [h]

theorem natToDec_all_digit (n : Nat) : ∀ c ∈ natToDec n, isDigitC c = true := by
  induction n using Nat.strong_induction_on with
  | _ n ih =>
    intro c hc
    by_cases h : n < 10
    · rw [natToDec_lt h] at hc
      rcases List.mem_singleton.mp hc with rfl
      exact (decDigitChar_facts n h).1
    · rw [natToDec_ge h] at hc
      rcases List.mem_append.mp hc with h2 | h2
      · exact ih (n / 10) (by omega) c h2
      · rcases List.mem_singleton.mp h2 with rfl
        exact (decDigitChar_facts (n % 10) (by omega)).1

theorem natToHex_all_hex (n : Nat) : ∀ c ∈ natToHex n, isHexC c = true := by
  induction n using Nat.strong_induction_on with
  | _ n ih =>
    intro c hc
    by_cases h : n < 16
    · rw [natToHex_lt h] at hc
      rcases List.mem_singleton.mp hc with rfl
      exact (hexDigitChar_facts n h).1
    · rw [natToHex_ge h] at hc
      rcases List.mem_append.mp hc with h2 | h2
      · exact ih (n / 16) (by omega) c h2
      · rcases List.mem_singleton.mp h2 with rfl
        exact (hexDigitChar_facts (n % 16) (by omega)).1

theorem natToDec_ne_nil (n : Nat) : natToDec n ≠ [] := by
  by_cases h : n < 10
  · rw [natToDec_lt h]; simp
  · rw [natToDec_ge h]; simp

theorem natToHex_ne_nil (n : Nat) : natToHex n ≠ [] := by
  by_cases h : n < 16
  · rw [natToHex_lt h]; simp
  · rw [natToHex_ge h]; simp

theorem foldl_natToDec (n : Nat) : ∀ acc : Nat,
    (natToDec n).foldl (fun a c => a * 10 + hexVal c) acc =
      acc * 10 ^ (natToDec n).length + n := by
  induction n using Nat.strong_induction_on with
  | _ n ih =>
    intro acc
    by_cases h : n < 10
    · rw [natToDec_lt h]
      simp [List.foldl, (decDigitChar_facts n h).2.1]
    · rw [natToDec_ge h, List.foldl_append, ih (n / 10) (by omega) acc]
      simp only [List.foldl, List.length_append, List.length_singleton]
      rw [(decDigitChar_facts (n % 10) (by omega)).2.1]
      rw [pow_succ, ← Nat.mul_assoc]
      have hdm : 10 * (n / 10) + n % 10 = n := Nat.div_add_mod n 10
      generalize acc * 10 ^ (natToDec (n / 10)).length = A
      omega

theorem foldl_natToHex (n : Nat) : ∀ acc : Nat,
    (natToHex n).foldl (fun a c => a * 16 + hexVal c) acc =
      acc * 16 ^ (natToHex n).length + n := by
  induction n using Nat.strong_induction_on with
  | _ n ih =>
    intro acc
    by_cases h : n < 16
    · rw [natToHex_lt h]
      simp [List.foldl, (hexDigitChar_facts n h).2.1]
    · rw [natToHex_ge h, List.foldl_append, ih (n / 16) (by omega) acc]
      simp only [List.foldl, List.length_append, List.length_singleton]
      rw [(hexDigitChar_facts (n % 16) (by omega)).2.1]
      rw [pow_succ, ← Nat.mul_assoc]
      have hdm : 16 * (n / 16) + n % 16 = n := Nat.div_add_mod n 16
      generalize acc * 16 ^ (natToHex (n / 16)).length = A
      omega

theorem stolDigits_run {p : Char → Bool} {v : Char → Nat} {b : Nat} :
    ∀ (ds r : List Char) (acc : Nat), (∀ c ∈ ds, p c = true) →
      (∀ c, r.head? = some c → p c = false) →
      stolDigits p v b (ds ++ r) acc =
        (ds.foldl (fun a c => a * b + v c) acc, r) := by
  intro ds
  induction ds with
  | nil =>
    intro r acc _ hr
    cases r with
    | nil => rfl
    | cons c rest =>
      show stolDigits p v b (c :: rest) acc = (acc, c :: rest)
      rw [stolDigits.eq_def]
      simp [hr c rfl]
  | cons d ds ih =>
    intro r acc hds hr
    show stolDigits p v b (d :: (ds ++ r)) acc = _
    rw [stolDigits.eq_def]
    simp only [hds d (List.mem_cons_self d ds), if_true, List.foldl]
    exact ih r (acc * b + v d) (fun x hx => hds x (List.mem_cons_of_mem d hx)) hr

theorem natToDec_head_pos (n : Nat) (hn : 0 < n) :
    ∃ c cs, natToDec n = c :: cs ∧ isDigitC c = true ∧ c ≠ '0' := by
  induction n using Nat.strong_induction_on with
  | _ n ih =>
    by_cases h : n < 10
    · refine ⟨decDigitChar n, [], natToDec_lt h, (decDigitChar_facts n h).1, ?_⟩
      intro he
      have : (decDigitChar n).toNat = 48 := by rw [he]; rfl
      simp only [decDigitChar] at this
      interval_cases n <;> simp_all
    · obtain ⟨c, cs, h1, h2, h3⟩ := ih (n / 10) (by omega) (by omega)
      exact ⟨c, cs ++ [decDigitChar (n % 10)], by rw [natToDec_ge h, h1]; rfl, h2, h3⟩

theorem toU32_natCast (n : Nat) (h : n < 4294967296) : toU32 ((n : Int)) = n := by
  unfold toU32
  rw [Int.emod_eq_of_lt (by omega) (by exact_mod_cast h)]
  exact Int.toNat_natCast n

theorem natToDec_head_digit (n : Nat) :
    ∃ c cs, natToDec n = c :: cs ∧ isDigitC c = true := by
  by_cases h0 : 0 < n
  · obtain ⟨c, cs, h1, h2, _⟩ := natToDec_head_pos n h0
    exact ⟨c, cs, h1, h2⟩
  · have hz : n = 0 := by omega
    subst hz
    exact ⟨'0', [], by rw [natToDec_lt (by omega)]; decide, by decide⟩

theorem stolCore_natToDec (n : Nat) : stolCore (natToDec n) = some (n, []) := by
  by_cases h0 : 0 < n
  · obtain ⟨c, cs, hd, hdig, hne0⟩ := natToDec_head_pos n h0
    rw [hd, stolCore.eq_def]
    simp only [if_neg hne0, hdig, if_true]
    rw [show (c :: cs) = (c :: cs) ++ [] from (List.append_nil _).symm, ← hd]
    rw [stolDigits_run (natToDec n) [] 0 (natToDec_all_digit n) (by intro x hx; cases hx)]
    rw [foldl_natToDec n 0]
    simp
  · have hz : n = 0 := by omega
    subst hz
    rw [natToDec_lt (by omega)]
    decide

theorem stolL_natToDec (n : Nat) (h : n ≤ longMax) :
    stolL (natToDec n) = some ((n : Int), []) := by
  obtain ⟨c, cs, hd, hdig⟩ := natToDec_head_digit n
  unfold stolL
  rw [if_neg (by
    rw [hd, List.head?_cons]
    intro he
    rcases Option.some.injEq _ _ ▸ he with rfl
    exact absurd hdig (by decide))]
  rw [if_neg (by
    rw [hd, List.head?_cons]
    intro he
    rcases Option.some.injEq _ _ ▸ he with rfl
    exact absurd hdig (by decide))]
  rw [stolCore_natToDec n]
  simp only [h, if_pos]

theorem stolL_hex (n : Nat) (h : n ≤ longMax) :
    stolL ('0' :: 'x' :: natToHex n) = some ((n : Int), []) := by
  obtain ⟨c2, cs2, hx⟩ : ∃ c2 cs2, natToHex n = c2 :: cs2 := by
    cases he : natToHex n with
    | nil => exact absurd he (natToHex_ne_nil n)
    | cons a b => exact ⟨a, b, rfl⟩
  have hhex2 : isHexC c2 = true := natToHex_all_hex n c2 (by rw [hx]; exact List.mem_cons_self c2 cs2)
  unfold stolL
  rw [if_neg (by simp), if_neg (by simp)]
  rw [stolCore.eq_def]
  simp only [if_pos rfl]
  rw [hx]
  simp only [Bool.or_true, Bool.true_or, Bool.true_and, hhex2, if_pos]
  rw [← hx]
  rw [show natToHex n = natToHex n ++ [] from (List.append_nil _).symm]
  rw [stolDigits_run (natToHex n) [] 0 (natToHex_all_hex n) (by intro x hx2; cases hx2)]
  rw [foldl_natToHex n 0]
  simp [h]

/-! ## Expression-parsing lemmas -/

theorem alpha_not_digit {c : Char} (h : isAlphaC c = true) : isDigitC c = false := by
  rw [Bool.eq_false_iff]
  intro hd
  simp only [isAlphaC, isDigitC, Bool.or_eq_true, Bool.and_eq_true,
    decide_eq_true_eq] at h hd
  omega

theorem alpha_ne_of {c : Char} (h : isAlphaC c = true) (d : Char)
    (hd : isAlphaC d = false) : c ≠ d := by
  intro he
  rw [he] at h
  rw [h] at hd
  cases hd

theorem contains_eq_false {a : Char} (l : List Char)
    (h : ∀ x ∈ l, x ≠ a) : l.contains a = false := by
  rw [Bool.eq_false_iff]
  intro hcon
  have hm : a ∈ l := by simpa using hcon
  exact (h a hm) rfl

theorem skipWS_id (l : List Char)
    (h : ∀ x, l.head? = some x → isSpaceC x = false ∧ x ≠ ';') :
    skipWS l = l := by
  simp only [skipWS]
  rw [dropWhile_false_head l (fun c hc => (h c hc).1)]
  rw [if_neg (fun he => (h ';' he).2 rfl)]

theorem skipWS_cons_space (l : List Char) : skipWS (' ' :: l) = skipWS l := by
  simp only [skipWS, List.dropWhile_cons, show isSpaceC ' ' = true from rfl, if_true]

theorem skipWS_nil : skipWS [] = [] := by decide

theorem parseExpr_dec (s : PState) (n : Nat) (hn : n < 4294967296) :
    parseExpressionL s (' ' :: natToDec n) = (CLeaf.num n, []) := by
  obtain ⟨c, cs, hd, hdig⟩ := natToDec_head_digit n
  have hsk : skipWS (' ' :: natToDec n) = natToDec n := by
    rw [skipWS_cons_space]
    refine skipWS_id _ (fun x hx => ?_)
    rw [hd, List.head?_cons] at hx
    cases Option.some.inj hx
    exact ⟨digit_not_space hdig, digit_ne hdig ';' (by decide)⟩
  simp only [parseExpressionL, hsk]
  rw [hd]
  simp only [hdig, Bool.true_or, if_true]
  rw [← hd, stolL_natToDec n (by unfold longMax; omega)]
  show (CLeaf.num (toU32 ((n : Int))), ([] : List Char)) = (CLeaf.num n, [])
  rw [toU32_natCast n hn]

theorem parseExpr_hexnum (s : PState) (n : Nat) (hn : n < 4294967296) :
    parseExpressionL s (' ' :: '0' :: 'x' :: natToHex n) = (CLeaf.num n, []) := by
  have hsk : skipWS (' ' :: '0' :: 'x' :: natToHex n) = '0' :: 'x' :: natToHex n := by
    rw [skipWS_cons_space]
    exact skipWS_id _ (by intro x hx; cases Option.some.inj hx; exact ⟨by decide, by decide⟩)
  simp only [parseExpressionL, hsk]
  simp only [show isDigitC '0' = true from rfl, Bool.true_or, if_true]
  rw [stolL_hex n (by unfold longMax; omega)]
  show (CLeaf.num (toU32 ((n : Int))), ([] : List Char)) = (CLeaf.num n, [])
  rw [toU32_natCast n hn]

theorem parseStringL_quote (v r : List Char) (hv : ∀ c ∈ v, c ≠ '"' ∧ c ≠ '\\') :
    parseStringL ('"' :: ((v ++ ['"']) ++ r)) = (v, r) := by
  have hsk : skipWS ('"' :: ((v ++ ['"']) ++ r)) = '"' :: ((v ++ ['"']) ++ r) :=
    skipWS_id _ (by intro x hx; cases Option.some.inj hx; exact ⟨by decide, by decide⟩)
  simp only [parseStringL, hsk]
  rw [if_pos (Or.inl trivial)]
  exact parseStringBody_exact v r hv

/-- One string atom in the expression loop, followed by a rest that does not
continue with `..`. -/
theorem exprAtomsLoop_str_once (s : PState) (f : Nat) (v rest acc : List Char)
    (isStr : Bool) (hv : ∀ c ∈ v, c ≠ '"' ∧ c ≠ '\\')
    (hdd : isDotDot (skipWS rest) = false) :
    exprAtomsLoop s (f + 1) ('"' :: ((v ++ ['"']) ++ rest)) acc isStr =
      (acc ++ v, true, skipWS rest) := by
  have hsk : skipWS ('"' :: ((v ++ ['"']) ++ rest)) = '"' :: ((v ++ ['"']) ++ rest) :=
    skipWS_id _ (by intro x hx; cases Option.some.inj hx; exact ⟨by decide, by decide⟩)
  rw [exprAtomsLoop]
  rw [if_neg (by simp)]
  rw [hsk]
  simp only
  rw [if_pos (Or.inl trivial)]
  rw [parseStringL_quote v rest hv]
  simp only [hdd, Bool.false_eq_true, if_false]

/-- One identifier atom in the expression loop, followed by a rest that does
not continue with `..`; `contrib` is whatever the flat-variable lookup
substitutes. -/
theorem exprAtomsLoop_ident_once (s : PState) (f : Nat) (c : Char)
    (cs rest acc contrib : List Char) (isStr : Bool)
    (hhead : isAlphaC c = true) (hall : ∀ x ∈ c :: cs, identChar x = true)
    (hrest : ∀ x, rest.head? = some x → identChar x = false)
    (hdd : isDotDot (skipWS rest) = false)
    (hcontrib : (match findVar s (c :: cs) with
      | some (CVal.leaf (CLeaf.str v)) => v
      | some (CVal.leaf (CLeaf.num n)) => '0' :: 'x' :: natToHex n
      | _ => c :: cs) = contrib) :
    exprAtomsLoop s (f + 1) ((c :: cs) ++ rest) acc isStr =
      (acc ++ contrib, true, skipWS rest) := by
  have hc : identChar c = true := hall c (List.mem_cons_self c cs)
  have hsk : skipWS ((c :: cs) ++ rest) = c :: (cs ++ rest) := by
    have := skipWS_head (cs ++ rest) (identChar_not_space hc)
      (identChar_ne_of hc ';' (by decide))
    simpa using this
  rw [exprAtomsLoop]
  rw [if_neg (by simp)]
  rw [hsk]
  simp only
  rw [if_neg (by
    push_neg
    exact ⟨identChar_ne_of hc '"' (by decide), identChar_ne_of hc '\'' (by decide)⟩)]
  rw [if_pos (by rw [hhead]; rfl)]
  have hpi : parseIdent (c :: (cs ++ rest)) = (c :: cs, rest) := by
    have := parseIdent_exact cs rest hc
      (fun x hx => hall x (List.mem_cons_of_mem c hx)) hrest
    simpa using this
  rw [hpi]
  simp only [hcontrib, hdd, Bool.false_eq_true, if_false]

theorem parseExpr_str_gen (s : PState) (v rest : List Char)
    (hv : ∀ c ∈ v, c ≠ '"' ∧ c ≠ '\\')
    (hgr : findGroupB s v = false)
    (hrid : skipWS rest = rest) (hdd : isDotDot rest = false) :
    parseExpressionL s (' ' :: '"' :: ((v ++ ['"']) ++ rest)) = (CLeaf.str v, rest) := by
  have hsk : skipWS (' ' :: '"' :: ((v ++ ['"']) ++ rest)) = '"' :: ((v ++ ['"']) ++ rest) := by
    rw [skipWS_cons_space]
    exact skipWS_id _ (by intro x hx; cases Option.some.inj hx; exact ⟨by decide, by decide⟩)
  simp only [parseExpressionL, hsk]
  simp only [show isDigitC '"' = false from rfl, Bool.false_or]
  rw [if_neg (by simp)]
  have hloop := exprAtomsLoop_str_once s ('"' :: ((v ++ ['"']) ++ rest)).length v rest []
    false hv (by rw [hrid]; exact hdd)
  rw [hloop, hrid]
  simp only [List.nil_append, hgr, Bool.and_false]
  simp

theorem parseExpr_ref_gen (s : PState) (c : Char) (cs rest : List Char)
    (hhead : isAlphaC c = true) (hall : ∀ x ∈ c :: cs, identChar x = true)
    (hfv : findVar s (c :: cs) = none)
    (hgr : findGroupB s (c :: cs) = true)
    (hrest : ∀ x, rest.head? = some x → identChar x = false)
    (hrid : skipWS rest = rest) (hdd : isDotDot rest = false) :
    parseExpressionL s (' ' :: ((c :: cs) ++ rest)) = (CLeaf.ref (c :: cs), rest) := by
  have hc : identChar c = true := hall c (List.mem_cons_self c cs)
  simp only [List.cons_append]
  have hsk : skipWS (' ' :: c :: (cs ++ rest)) = c :: (cs ++ rest) := by
    rw [skipWS_cons_space]
    exact skipWS_head _ (identChar_not_space hc) (identChar_ne_of hc ';' (by decide))
  simp only [parseExpressionL, hsk]
  rw [if_neg (by
    simp only [alpha_not_digit hhead, Bool.false_or]
    simp [alpha_ne_of hhead '-' (by decide)])]
  have hloop := exprAtomsLoop_ident_once s (c :: (cs ++ rest)).length c cs rest []
    (c :: cs) false hhead hall hrest (by rw [hrid]; exact hdd) (by rw [hfv])
  simp only [List.cons_append] at hloop
  rw [hloop, hrid]
  have hcont : (c :: cs).contains '"' = false :=
    contains_eq_false _ (fun x hx => identChar_ne_of (hall x hx) '"' (by decide))
  simp only [List.nil_append, hcont, hgr, Bool.not_false, Bool.and_true,
    List.isEmpty_cons, Bool.true_and, Bool.and_self, if_pos]

/-- A key-value line `name = VALUE`: the identifier, the equals sign, and
whatever the expression parser makes of the value. -/
theorem parseKV_exact (s : PState) (c : Char) (nm rest res : List Char)
    (lf : CLeaf) (hc : isAlphaC c = true)
    (hnm : ∀ x ∈ c :: nm, identChar x = true)
    (hexpr : parseExpressionL s (' ' :: rest) = (lf, res)) :
    parseKeyValueL s ((c :: nm) ++ (' ' :: '=' :: ' ' :: rest)) =
      (some (c :: nm, CVal.leaf lf), res) := by
  have hch : identChar c = true := hnm c (List.mem_cons_self c nm)
  have hsk : skipWS ((c :: nm) ++ (' ' :: '=' :: ' ' :: rest)) =
      (c :: nm) ++ (' ' :: '=' :: ' ' :: rest) :=
    skipWS_id _ (by
      intro x hx
      cases Option.some.inj hx
      exact ⟨identChar_not_space hch, identChar_ne_of hch ';' (by decide)⟩)
  have hpi : parseIdent ((c :: nm) ++ (' ' :: '=' :: ' ' :: rest)) =
      (c :: nm, ' ' :: '=' :: ' ' :: rest) :=
    parseIdent_exact nm (' ' :: '=' :: ' ' :: rest) hch
      (fun x hx => hnm x (List.mem_cons_of_mem c hx))
      (by intro x hx; cases Option.some.inj hx; decide)
  have hsk2 : skipWS (' ' :: '=' :: ' ' :: rest) = '=' :: ' ' :: rest := by
    rw [skipWS_cons_space]
    exact skipWS_id _ (by intro x hx; cases Option.some.inj hx; exact ⟨by decide, by decide⟩)
  simp only [parseKeyValueL, hsk, hpi]
  rw [if_neg (by simp)]
  rw [hsk2]
  simp only [hexpr]

/-! ## Group lines and the per-line dispatch -/

theorem head?_mem {l : List Char} {c : Char} (h : l.head? = some c) : c ∈ l := by
  cases l with
  | nil => cases h
  | cons a r =>
    rw [List.head?_cons] at h
    cases Option.some.inj h
    exact List.mem_cons_self _ _

theorem alpha_not_space {c : Char} (h : isAlphaC c = true) : isSpaceC c = false := by
  simp only [isAlphaC, Bool.or_eq_true, Bool.and_eq_true, decide_eq_true_eq] at h
  rcases h with h | h
  · exact not_space_of_range (by omega)
  · exact not_space_of_range (by omega)

theorem breakAt_exact :
    ∀ (g r : List Char), (∀ x ∈ g, x ≠ ']') →
      breakAtChar ']' (g ++ (']' :: r)) = some (g, r) := by
  intro g
  induction g with
  | nil => intro r _; simp [breakAtChar]
  | cons c g ih =>
    intro r h
    show breakAtChar ']' (c :: (g ++ (']' :: r))) = _
    rw [breakAtChar]
    rw [if_neg (h c (List.mem_cons_self c g))]
    rw [ih r (fun x hx => h x (List.mem_cons_of_mem c hx))]
    rfl

theorem dropWhile_not_space_id (l : List Char)
    (h : ∀ x ∈ l, isSpaceC x = false) : l.dropWhile isSpaceC = l :=
  dropWhile_false_head l (fun c hc => h c (head?_mem hc))

theorem trimWS_id (l : List Char) (h : ∀ x ∈ l, isSpaceC x = false) :
    trimWS l = l := by
  simp only [trimWS]
  rw [dropWhile_not_space_id l h]
  rw [dropWhile_not_space_id l.reverse (fun x hx => h x (List.mem_reverse.mp hx))]
  exact List.reverse_reverse l

theorem parseGroupL_exact (g : List Char) (hg : goodGroupNameB g = true) :
    parseGroupL ('[' :: (g ++ [']'])) = some g := by
  obtain ⟨c0, g', rfl⟩ : ∃ c0 g', g = c0 :: g' := by
    cases g with
    | nil => simp [goodGroupNameB] at hg
    | cons a b => exact ⟨a, b, rfl⟩
  have halpha : ∀ x ∈ c0 :: g', isAlphaC x = true := by
    intro x hx
    simp only [goodGroupNameB, Bool.and_eq_true, List.all_eq_true] at hg
    exact hg.2 x hx
  have hnospace : ∀ x ∈ c0 :: g', isSpaceC x = false :=
    fun x hx => alpha_not_space (halpha x hx)
  simp only [parseGroupL, breakAtChar, if_pos]
  have hdw : (c0 :: g' ++ [']']).dropWhile isSpaceC = c0 :: g' ++ [']'] := by
    apply dropWhile_false_head
    intro x hx
    simp only [List.cons_append, List.head?_cons] at hx
    cases Option.some.inj hx
    exact hnospace c0 (List.mem_cons_self c0 g')
  simp only [List.cons_append] at hdw ⊢
  rw [hdw]
  rw [if_neg (by simp)]
  have hbr : breakAtChar ']' (c0 :: (g' ++ [']'])) = some (c0 :: g', []) := by
    have := breakAt_exact (c0 :: g') []
      (fun x hx => alpha_ne_of (halpha x hx) ']' (by decide))
    simpa using this
  rw [hbr]
  dsimp only
  rw [trimWS_id (c0 :: g') hnospace]
  simp

theorem lineStep_group (s : PState) (g : List Char) (hg : goodGroupNameB g = true) :
    lineStep s ('[' :: (g ++ [']'])) = some ⟨s.doc ++ [(g, [])], s.vmap⟩ := by
  simp only [lineStep]
  rw [if_neg (by simp)]
  rw [skipWS_head (g ++ [']']) (by decide) (by decide)]
  dsimp only
  rw [if_neg (by decide), if_pos rfl]
  rw [parseGroupL_exact g hg]

theorem lineStep_blank (s : PState) : lineStep s [] = some s := rfl

theorem lineStep_kv (s : PState) (c : Char) (nm rest res : List Char) (lf : CLeaf)
    (hdoc : s.doc ≠ []) (hc : isAlphaC c = true)
    (hnm : ∀ x ∈ c :: nm, identChar x = true)
    (hexpr : parseExpressionL s (' ' :: rest) = (lf, res)) :
    lineStep s ((c :: nm) ++ (' ' :: '=' :: ' ' :: rest)) =
      some ⟨addVarLast s.doc (c :: nm, CVal.leaf lf),
        (c :: nm, CVal.leaf lf) :: s.vmap⟩ := by
  have hch : identChar c = true := hnm c (List.mem_cons_self c nm)
  have hkv := parseKV_exact s c nm rest res lf hc hnm hexpr
  simp only [List.cons_append] at hkv ⊢
  simp only [lineStep]
  rw [if_neg (by simp)]
  rw [skipWS_head (nm ++ (' ' :: '=' :: ' ' :: rest)) (identChar_not_space hch)
    (identChar_ne_of hch ';' (by decide))]
  dsimp only
  rw [if_neg (by
    push_neg
    exact ⟨identChar_ne_of hch ';' (by decide), identChar_ne_of hch '#' (by decide)⟩)]
  rw [if_neg (alpha_ne_of hc '[' (by decide))]
  rw [if_neg (alpha_ne_of hc '{' (by decide))]
  rw [if_pos hc, if_neg hdoc]
  rw [hkv]

theorem lineStep_list (s : PState) (t : List Char) (items : List (List Char × CLeaf))
    (rr : List Char) (hdoc : s.doc ≠ [])
    (hpl : parseListItemL s ('{' :: t) = some (CVal.lst items, rr)) :
    lineStep s ('{' :: t) = some ⟨addVarLast s.doc ([], CVal.lst items), s.vmap⟩ := by
  simp only [lineStep]
  rw [if_neg (by simp)]
  rw [skipWS_head t (by decide) (by decide)]
  dsimp only
  rw [if_neg (by decide), if_neg (by decide), if_pos rfl, if_neg hdoc]
  rw [hpl]

/-! ## Literal string normalizations -/

theorem tlEqSp : (" = \"" : String).toList = [' ', '=', ' ', '"'] := rfl

theorem tlEqPlain : (" = " : String).toList = [' ', '=', ' '] := rfl

theorem tlEqHex : (" = 0x" : String).toList = [' ', '=', ' ', '0', 'x'] := rfl

theorem tlQuoteComma : ("\", " : String).toList = ['"', ',', ' '] := rfl

theorem tlComma : (", " : String).toList = [',', ' '] := rfl

theorem tlBraceOpen : ("\x7b " : String).toList = ['{', ' '] := rfl

theorem tlBraceClose : ("\x7d," : String).toList = ['}', ','] := rfl

theorem tlBraceCloseNl : ("\x7d,\n" : String).toList = ['}', ',', '\n'] := rfl

theorem tlBracketNl : ("]\n" : String).toList = [']', '\n'] := rfl

theorem tlQuoteNl : ("\"\n" : String).toList = ['"', '\n'] := rfl

/-! ## The list-item loop on serialized children -/

theorem parseListLoop_items (s : PState) (gname : List Char) :
    ∀ (items : List (List Char × CLeaf)) (f : Nat) (acc : List (List Char × CLeaf)),
      (dumpItems gname items).length + 2 ≤ f →
      (∀ it ∈ items, ItemOk s it) →
      parseListLoop s f (' ' :: (dumpItems gname items ++ ['}', ','])) acc =
        (acc ++ items, [',']) := by
  intro items
  induction items with
  | nil =>
    intro f acc hf _
    obtain ⟨f', rfl⟩ : ∃ f', f = f' + 1 := ⟨f - 1, by omega⟩
    show parseListLoop s (f' + 1) (' ' :: ([] ++ ['}', ','])) acc = (acc ++ [], [','])
    rw [parseListLoop]
    simp only [List.nil_append, List.append_nil]
    rw [show skipWS [' ', '}', ','] = ['}', ','] from by decide]
    simp
  | cons it rest ih =>
    intro f acc hf hok
    obtain ⟨iname, ival⟩ := it
    obtain ⟨⟨c, nm, hname, hcAlpha, hids⟩, hval⟩ := hok _ (List.mem_cons_self _ rest)
    simp only at hname
    subst hname
    obtain ⟨f', rfl⟩ : ∃ f', f = f' + 1 := ⟨f - 1, by omega⟩
    have hrest2 := fun x (hx : x ∈ rest) => hok x (List.mem_cons_of_mem _ hx)
    cases ival with
    | num n => exact absurd hval (by simp [ItemOk])
    | str v =>
      simp only [ItemOk] at hval
      have hv := hval.1
      have hgr := hval.2
      simp only [dumpItems, dumpItem, tlEqSp, tlQuoteComma, List.cons_append,
        List.append_assoc, List.nil_append]
      rw [parseListLoop]
      have hsk1 : skipWS (' ' :: c :: (nm ++ ' ' :: '=' :: ' ' :: '"' ::
          (v ++ '"' :: ',' :: ' ' :: (dumpItems gname rest ++ ['}', ','])))) =
          c :: (nm ++ ' ' :: '=' :: ' ' :: '"' ::
          (v ++ '"' :: ',' :: ' ' :: (dumpItems gname rest ++ ['}', ',']))) := by
        rw [skipWS_cons_space]
        exact skipWS_head _ (alpha_not_space hcAlpha) (alpha_ne_of hcAlpha ';' (by decide))
      rw [hsk1]
      rw [if_neg (by simp)]
      rw [if_neg (by
        rw [List.head?_cons]
        intro he
        cases Option.some.inj he
        exact absurd hcAlpha (by decide))]
      have hexpr := parseExpr_str_gen s v
        (',' :: ' ' :: (dumpItems gname rest ++ ['}', ','])) hv hgr
        (skipWS_head _ (by decide) (by decide)) rfl
      have hkv := parseKV_exact s c nm
        ('"' :: ((v ++ ['"']) ++ (',' :: ' ' :: (dumpItems gname rest ++ ['}', ',']))))
        (',' :: ' ' :: (dumpItems gname rest ++ ['}', ','])) (CLeaf.str v) hcAlpha
        hids (by
          simp only [List.cons_append, List.append_assoc] at hexpr ⊢
          exact hexpr)
      simp only [List.cons_append, List.append_assoc, List.nil_append] at hkv
      rw [hkv]
      dsimp only
      rw [show skipWS (',' :: ' ' :: (dumpItems gname rest ++ ['}', ','])) =
          ',' :: ' ' :: (dumpItems gname rest ++ ['}', ',']) from
        skipWS_head _ (by decide) (by decide)]
      rw [if_pos (by rw [List.head?_cons])]
      rw [if_neg (by simp)]
      rw [List.tail_cons]
      rw [ih f' (acc ++ [(c :: nm, CLeaf.str v)]) (by
        simp only [dumpItems, dumpItem, tlEqSp, tlQuoteComma, List.length_append,
          List.length_cons] at hf ⊢
        omega) hrest2]
      simp
    | ref r =>
      simp only [ItemOk] at hval
      obtain ⟨⟨rc, rcs, hrshape, hrAlpha, hrids⟩, hfv, hgr⟩ := hval
      subst hrshape
      simp only [dumpItems, dumpItem, tlEqPlain, tlComma, List.cons_append,
        List.append_assoc, List.nil_append]
      rw [parseListLoop]
      have hsk1 : skipWS (' ' :: c :: (nm ++ ' ' :: '=' :: ' ' :: rc ::
          (rcs ++ ',' :: ' ' :: (dumpItems gname rest ++ ['}', ','])))) =
          c :: (nm ++ ' ' :: '=' :: ' ' :: rc ::
          (rcs ++ ',' :: ' ' :: (dumpItems gname rest ++ ['}', ',']))) := by
        rw [skipWS_cons_space]
        exact skipWS_head _ (alpha_not_space hcAlpha) (alpha_ne_of hcAlpha ';' (by decide))
      rw [hsk1]
      rw [if_neg (by simp)]
      rw [if_neg (by
        rw [List.head?_cons]
        intro he
        cases Option.some.inj he
        exact absurd hcAlpha (by decide))]
      have hexpr := parseExpr_ref_gen s rc rcs
        (',' :: ' ' :: (dumpItems gname rest ++ ['}', ','])) hrAlpha hrids hfv hgr
        (by intro x hx; cases Option.some.inj hx; decide)
        (skipWS_head _ (by decide) (by decide)) rfl
      have hkv := parseKV_exact s c nm
        ((rc :: rcs) ++ (',' :: ' ' :: (dumpItems gname rest ++ ['}', ','])))
        (',' :: ' ' :: (dumpItems gname rest ++ ['}', ','])) (CLeaf.ref (rc :: rcs))
        hcAlpha hids (by
          simp only [List.cons_append, List.append_assoc] at hexpr ⊢
          exact hexpr)
      simp only [List.cons_append, List.append_assoc, List.nil_append] at hkv
      rw [hkv]
      dsimp only
      rw [show skipWS (',' :: ' ' :: (dumpItems gname rest ++ ['}', ','])) =
          ',' :: ' ' :: (dumpItems gname rest ++ ['}', ',']) from
        skipWS_head _ (by decide) (by decide)]
      rw [if_pos (by rw [List.head?_cons])]
      rw [if_neg (by simp)]
      rw [List.tail_cons]
      rw [ih f' (acc ++ [(c :: nm, CLeaf.ref (rc :: rcs))]) (by
        simp only [dumpItems, dumpItem, tlEqPlain, tlComma, List.length_append,
          List.length_cons] at hf ⊢
        omega) hrest2]
      simp

/-- An anonymous list line re-parses to its children. -/
theorem parseListItem_items (s : PState) (gname : List Char)
    (items : List (List Char × CLeaf))
    (hok : ∀ it ∈ items, ItemOk s it) :
    parseListItemL s ('{' :: ' ' :: (dumpItems gname items ++ ['}', ','])) =
      some (CVal.lst items, [',']) := by
  simp only [parseListItemL]
  rw [skipWS_head (' ' :: (dumpItems gname items ++ ['}', ','])) (by decide) (by decide)]
  have hp := parseListLoop_items s gname items
    ((' ' :: (dumpItems gname items ++ ['}', ','])).length + 1) [] (by
      simp only [List.length_cons, List.length_append]
      omega) hok
  show some (CVal.lst (parseListLoop s
      ((' ' :: (dumpItems gname items ++ ['}', ','])).length + 1)
      (' ' :: (dumpItems gname items ++ ['}', ','])) []).1,
    (parseListLoop s ((' ' :: (dumpItems gname items ++ ['}', ','])).length + 1)
      (' ' :: (dumpItems gname items ++ ['}', ','])) []).2) =
    some (CVal.lst items, [','])
  rw [hp]
  simp

/-! ## Membership toolkit for name lists -/

theorem containsN_eq_false (l : List (List Char)) (n : List Char)
    (h : ∀ x ∈ l, x ≠ n) : l.contains n = false := by
  rw [Bool.eq_false_iff]
  intro hcon
  have hm : n ∈ l := by simpa using hcon
  exact (h n hm) rfl

theorem containsN_eq_true (l : List (List Char)) (n : List Char)
    (h : n ∈ l) : l.contains n = true := by simpa using h

theorem mem_of_containsN (l : List (List Char)) (n : List Char)
    (h : l.contains n = true) : n ∈ l := by simpa using h

theorem findGroupB_false (s : PState) (n : List Char)
    (h : ∀ x ∈ s.doc.map (fun g => g.1), x ≠ n) : findGroupB s n = false :=
  containsN_eq_false _ n h

theorem findGroupB_true (s : PState) (n : List Char)
    (h : n ∈ s.doc.map (fun g => g.1)) : findGroupB s n = true :=
  containsN_eq_true _ n h

theorem findVar_none (s : PState) (n : List Char)
    (h : ∀ kv ∈ s.vmap, kv.1 ≠ n) : findVar s n = none := by
  have hf : List.find? (fun kv => kv.1 == n) s.vmap = none := by
    rw [List.find?_eq_none]
    intro kv hkv
    simpa using h kv hkv
  simp [findVar, hf]

/-! ## Document-shape toolkit -/

theorem addVarLast_append (pre : Doc) (gn : List Char) (gvs : List CVar)
    (v : CVar) :
    addVarLast (pre ++ [(gn, gvs)]) v = pre ++ [(gn, gvs ++ [v])] := by
  induction pre with
  | nil => rfl
  | cons g rest ih =>
    cases rest with
    | nil => rfl
    | cons r rs =>
      simp only [List.cons_append] at ih ⊢
      rw [show addVarLast (g :: r :: (rs ++ [(gn, gvs)])) v
          = g :: addVarLast (r :: (rs ++ [(gn, gvs)])) v from rfl]
      rw [ih]

theorem parseLines_cons_some (s t : PState) (l : List Char)
    (rest : List (List Char)) (h : lineStep s l = some t) :
    parseLines s (l :: rest) = parseLines t rest := by
  simp [parseLines, h]

/-! ## Serializer output at line granularity -/

theorem dumpVar_eq_varLine (gname : List Char) (v : CVar) :
    dumpVar gname v = varLine gname v ++ ['\n'] := by
  obtain ⟨nm, val⟩ := v
  cases val with
  | lst items =>
    simp [dumpVar, varLine, tlBraceCloseNl, tlBraceClose, tlBraceOpen,
      List.append_assoc]
  | leaf lf =>
    cases lf with
    | num n =>
      simp only [dumpVar, varLine]
      split <;> simp [List.append_assoc]
    | str sv => simp [dumpVar, varLine, tlQuoteNl, tlEqSp, List.append_assoc]
    | ref r => simp [dumpVar, varLine, List.append_assoc]

theorem joinNl_append (a b : List (List Char)) :
    joinNl (a ++ b) = joinNl a ++ joinNl b := by
  induction a with
  | nil => simp [joinNl]
  | cons l rest ih => simp [joinNl, ih]

theorem dumpVars_eq_join (gname : List Char) (vs : List CVar) :
    dumpVars gname vs = joinNl (vs.map (varLine gname)) := by
  induction vs with
  | nil => rfl
  | cons v rest ih =>
    simp only [dumpVars, List.map_cons, joinNl, ih, dumpVar_eq_varLine]
    simp

theorem dumpGroup_eq_join (g : CGroup) : dumpGroup g = joinNl (groupLines g) := by
  simp only [dumpGroup, groupLines, joinNl, joinNl_append,
    dumpVars_eq_join, tlBracketNl]
  simp [joinNl]

theorem dumpGroups_eq_join (d : Doc) : dumpGroups d = joinNl (docLines d) := by
  induction d with
  | nil => rfl
  | cons g rest ih => simp only [dumpGroups, docLines, joinNl_append,
      dumpGroup_eq_join, ih]

theorem dumpToString_eq_join (d : Doc) (hd : d ≠ []) :
    dumpToStringCFG d = joinNl (docLines d) := by
  rw [dumpToStringCFG, if_neg hd, dumpGroups_eq_join]

/-! ## getline inverts line joining -/

theorem joinNl_ne_nil (l : List Char) (rest : List (List Char)) :
    joinNl (l :: rest) ≠ [] := by
  simp only [joinNl]
  cases l <;> simp

theorem splitNlAux_line (l : List Char) (rest acc : List Char)
    (hl : '\n' ∉ l) :
    splitNlAux (l ++ '\n' :: rest) acc =
      (acc.reverse ++ l) :: (if rest = [] then [] else splitNlAux rest []) := by
  induction l generalizing acc with
  | nil => simp [splitNlAux]
  | cons c cs ih =>
    have hc : c ≠ '\n' := fun he => hl (he ▸ List.mem_cons_self c cs)
    have hcs : '\n' ∉ cs := fun hm => hl (List.mem_cons_of_mem c hm)
    simp only [List.cons_append, splitNlAux, if_neg hc]
    simp only [List.append_eq]
    rw [ih (c :: acc) hcs]
    simp

theorem splitNl_joinNl (lines : List (List Char))
    (h : ∀ l ∈ lines, '\n' ∉ l) : splitNl (joinNl lines) = lines := by
  induction lines with
  | nil => rfl
  | cons l rest ih =>
    have hl : '\n' ∉ l := h l (List.mem_cons_self l rest)
    have hrest : ∀ x ∈ rest, '\n' ∉ x := fun x hx => h x (List.mem_cons_of_mem l hx)
    simp only [joinNl, splitNl]
    rw [if_neg (by cases l <;> simp)]
    rw [splitNlAux_line l (joinNl rest) [] hl]
    simp only [List.reverse_nil, List.nil_append]
    cases rest with
    | nil => simp [joinNl]
    | cons r rs =>
      rw [if_neg (joinNl_ne_nil r rs)]
      have := ih hrest
      rw [splitNl, if_neg (joinNl_ne_nil r rs)] at this
      rw [this]

/-! ## Serialized lines of the round-trip fragment contain no newline -/

theorem ne_nl_of_ident {c : Char} (h : identChar c = true) : c ≠ '\n' :=
  identChar_ne_of h '\n' (by decide)

theorem ne_nl_of_alpha {c : Char} (h : isAlphaC c = true) : c ≠ '\n' :=
  alpha_ne_of h '\n' (by decide)

theorem noNl_append {a b : List Char} (ha : ∀ c ∈ a, c ≠ '\n')
    (hb : ∀ c ∈ b, c ≠ '\n') : ∀ c ∈ a ++ b, c ≠ '\n' := by
  intro c hc
  rcases List.mem_append.mp hc with h | h
  · exact ha c h
  · exact hb c h

theorem noNl_cons {x : Char} {l : List Char} (hx : x ≠ '\n')
    (hl : ∀ c ∈ l, c ≠ '\n') : ∀ c ∈ x :: l, c ≠ '\n' := by
  intro c hc
  rcases List.mem_cons.mp hc with h | h
  · exact h ▸ hx
  · exact hl c h

theorem noNl_goodVarName {nm : List Char} (h : goodVarNameB nm = true) :
    ∀ c ∈ nm, c ≠ '\n' := by
  cases nm with
  | nil => simp
  | cons c cs =>
    simp only [goodVarNameB, Bool.and_eq_true, List.all_eq_true] at h
    exact noNl_cons (ne_nl_of_alpha h.1) (fun x hx => ne_nl_of_ident (h.2 x hx))

theorem noNl_natToDec (n : Nat) : ∀ c ∈ natToDec n, c ≠ '\n' := by
  intro c hc he
  have := natToDec_all_digit n c hc
  rw [he] at this
  exact absurd this (by decide)

theorem noNl_natToHex (n : Nat) : ∀ c ∈ natToHex n, c ≠ '\n' := by
  intro c hc he
  have := natToHex_all_hex n c hc
  rw [he] at this
  exact absurd this (by decide)

theorem noNl_goodStr {sv : List Char}
    (h : sv.all (fun c => !(c == '"' || c == '\\' || c == '\n')) = true) :
    ∀ c ∈ sv, c ≠ '\n' := by
  intro c hc he
  have := List.all_eq_true.mp h c hc
  rw [he] at this
  exact absurd this (by decide)

theorem noNl_dumpItems (gname : List Char) (gU allG allV : List (List Char)) :
    ∀ (items : List (List Char × CLeaf)),
      items.all (goodItemB gU allG allV) = true →
      ∀ c ∈ dumpItems gname items, c ≠ '\n' := by
  intro items
  induction items with
  | nil => simp [dumpItems]
  | cons it rest ih =>
    intro hall
    simp only [List.all_cons, Bool.and_eq_true] at hall
    obtain ⟨hit, hrest⟩ := hall
    obtain ⟨inm, ival⟩ := it
    simp only [dumpItems]
    refine noNl_append ?_ (ih hrest)
    simp only [goodItemB, Bool.and_eq_true] at hit
    cases ival with
    | num n => exact absurd hit.2 (by simp)
    | str sv =>
      simp only [goodLeafB, Bool.and_eq_true] at hit
      simp only [dumpItem, tlEqSp, tlQuoteComma]
      exact noNl_append (noNl_append (noNl_append (noNl_goodVarName hit.1)
        (by decide)) (noNl_goodStr hit.2.1)) (by decide)
    | ref r =>
      simp only [goodLeafB, Bool.and_eq_true] at hit
      simp only [dumpItem, tlEqPlain, tlComma]
      exact noNl_append (noNl_append (noNl_append (noNl_goodVarName hit.1)
        (by decide)) (noNl_goodVarName hit.2.1.1)) (by decide)

theorem noNl_varLine (gname : List Char) (gU allG allV : List (List Char))
    (v : CVar) (hv : goodVarB gU allG allV v = true) :
    '\n' ∉ varLine gname v := by
  suffices h : ∀ c ∈ varLine gname v, c ≠ '\n' by
    intro hm
    exact h _ hm rfl
  obtain ⟨nm, val⟩ := v
  cases val with
  | leaf lf =>
    simp only [goodVarB, Bool.and_eq_true] at hv
    obtain ⟨hnm, hlf⟩ := hv
    cases lf with
    | num n =>
      simp only [varLine, tlEqHex, tlEqPlain]
      by_cases hgn : gname = imageCfgName
      · rw [if_pos hgn]
        exact noNl_append (noNl_append (noNl_goodVarName hnm) (by decide))
          (noNl_natToHex n)
      · rw [if_neg hgn]
        exact noNl_append (noNl_append (noNl_goodVarName hnm) (by decide))
          (noNl_natToDec n)
    | str sv =>
      simp only [goodLeafB, Bool.and_eq_true] at hlf
      simp only [varLine, tlEqSp]
      exact noNl_append (noNl_append (noNl_append (noNl_goodVarName hnm)
        (by decide)) (noNl_goodStr hlf.1)) (by decide)
    | ref r =>
      simp only [goodLeafB, Bool.and_eq_true] at hlf
      simp only [varLine, tlEqPlain]
      exact noNl_append (noNl_append (noNl_goodVarName hnm) (by decide))
        (noNl_goodVarName hlf.1.1)
  | lst items =>
    simp only [goodVarB, Bool.and_eq_true] at hv
    obtain ⟨hnme, hitems⟩ := hv
    have hnm : nm = [] := by simpa using hnme
    subst hnm
    simp only [varLine, if_pos rfl, tlBraceOpen, tlBraceClose, List.nil_append]
    exact noNl_append (noNl_append (by decide)
      (noNl_dumpItems gname gU allG allV items hitems)) (by decide)

theorem noNl_docLines (allG allV : List (List Char)) :
    ∀ (d : Doc) (seen : List (List Char)),
      goodGroupsB allG allV seen d = true →
      ∀ l ∈ docLines d, '\n' ∉ l := by
  intro d
  induction d with
  | nil => intro seen _ l hl; simp [docLines] at hl
  | cons g rest ih =>
    intro seen hgood l hl
    simp only [goodGroupsB, Bool.and_eq_true] at hgood
    obtain ⟨⟨hgn, hgvs⟩, hrest⟩ := hgood
    simp only [docLines, List.mem_append] at hl
    rcases hl with hl | hl
    · simp only [groupLines, List.mem_cons, List.mem_append] at hl
      rcases hl with hl | hl | hl
      · subst hl
        simp only [goodGroupNameB, Bool.and_eq_true, List.all_eq_true] at hgn
        intro hm
        exact noNl_cons (by decide)
          (noNl_append (fun x hx => ne_nl_of_alpha (hgn.2 x hx)) (by decide))
          _ hm rfl
      · obtain ⟨v, hvmem, rfl⟩ := List.mem_map.mp hl
        simp only [List.all_eq_true] at hgvs
        exact noNl_varLine g.1 (seen ++ [g.1]) allG allV v (hgvs v hvmem)
      · simp only [List.mem_cons, List.not_mem_nil, or_false] at hl
        subst hl
        simp
    · exact ih (seen ++ [g.1]) hrest l hl

/-! ## Reparsing the serialized variable block of one group -/

theorem allid_of_goodName {c : Char} {cs : List Char}
    (h : goodVarNameB (c :: cs) = true) :
    isAlphaC c = true ∧ ∀ x ∈ c :: cs, identChar x = true := by
  simp only [goodVarNameB, Bool.and_eq_true, List.all_eq_true] at h
  refine ⟨h.1, ?_⟩
  intro x hx
  rcases List.mem_cons.mp hx with h1 | h1
  · exact h1 ▸ alpha_ident h.1
  · exact h.2 x h1

theorem strChars_of_good {sv : List Char}
    (h : sv.all (fun c => !(c == '"' || c == '\\' || c == '\n')) = true) :
    ∀ c ∈ sv, c ≠ '"' ∧ c ≠ '\\' := by
  intro x hx
  have := List.all_eq_true.mp h x hx
  simp only [Bool.not_eq_eq_eq_not, Bool.not_true, Bool.or_eq_false_iff,
    beq_eq_false_iff_ne, ne_eq] at this
  exact ⟨this.1.1, this.1.2⟩

theorem groupNames_state (pre : Doc) (gname : List Char) (gvs0 : List CVar) :
    (pre ++ [(gname, gvs0)]).map (fun g => g.1) =
      pre.map (fun g => g.1) ++ [gname] := by
  simp

theorem findGroupB_state_false (pre : Doc) (gname : List Char)
    (gvs0 : List CVar) (vm : List (List Char × CVal))
    (allG : List (List Char)) (n : List Char)
    (hsub : ∀ x ∈ pre.map (fun g => g.1) ++ [gname], x ∈ allG)
    (hng : allG.contains n = false) :
    findGroupB ⟨pre ++ [(gname, gvs0)], vm⟩ n = false := by
  refine findGroupB_false _ _ ?_
  intro x hx he
  subst he
  rw [groupNames_state] at hx
  rw [containsN_eq_true allG x (hsub x hx)] at hng
  exact absurd hng (by simp)

theorem findGroupB_state_true (pre : Doc) (gname : List Char)
    (gvs0 : List CVar) (vm : List (List Char × CVal)) (n : List Char)
    (hmem : n ∈ pre.map (fun g => g.1) ++ [gname]) :
    findGroupB ⟨pre ++ [(gname, gvs0)], vm⟩ n = true := by
  refine findGroupB_true _ _ ?_
  rw [groupNames_state]
  exact hmem

theorem findVar_state_none (d : Doc) (vm : List (List Char × CVal))
    (allV : List (List Char)) (n : List Char)
    (hvm : ∀ kv ∈ vm, kv.1 ∈ allV) (hnv : allV.contains n = false) :
    findVar ⟨d, vm⟩ n = none := by
  refine findVar_none _ _ ?_
  intro kv hkv he
  rw [containsN_eq_true allV n (he ▸ hvm kv hkv)] at hnv
  exact absurd hnv (by simp)

theorem itemOk_of_good (pre : Doc) (gname : List Char) (gvs0 : List CVar)
    (vm : List (List Char × CVal)) (allG allV : List (List Char))
    (hsub : ∀ x ∈ pre.map (fun g => g.1) ++ [gname], x ∈ allG)
    (hvm : ∀ kv ∈ vm, kv.1 ∈ allV)
    (it : List Char × CLeaf)
    (hit : goodItemB (pre.map (fun g => g.1) ++ [gname]) allG allV it = true) :
    ItemOk ⟨pre ++ [(gname, gvs0)], vm⟩ it := by
  obtain ⟨inm, ival⟩ := it
  simp only [goodItemB, Bool.and_eq_true] at hit
  obtain ⟨hinm, hin⟩ := hit
  cases inm with
  | nil => exact absurd hinm (by simp [goodVarNameB])
  | cons ic ics =>
    obtain ⟨hicA, hicall⟩ := allid_of_goodName hinm
    refine ⟨⟨ic, ics, rfl, hicA, hicall⟩, ?_⟩
    cases ival with
    | num n => exact absurd hin (by simp)
    | str sv =>
      simp only [goodLeafB, Bool.and_eq_true, Bool.not_eq_eq_eq_not,
        Bool.not_true] at hin
      exact ⟨strChars_of_good hin.1, findGroupB_state_false pre gname gvs0 vm
        allG sv hsub hin.2⟩
    | ref r =>
      simp only [goodLeafB, Bool.and_eq_true, Bool.not_eq_eq_eq_not,
        Bool.not_true] at hin
      obtain ⟨⟨hrn, hrg⟩, hrv⟩ := hin
      cases r with
      | nil => exact absurd hrn (by simp [goodVarNameB])
      | cons rc rcs =>
        obtain ⟨hrcA, hrcall⟩ := allid_of_goodName hrn
        exact ⟨⟨rc, rcs, rfl, hrcA, hrcall⟩,
          findVar_state_none _ vm allV _ hvm hrv,
          findGroupB_state_true pre gname gvs0 vm _
            (mem_of_containsN _ _ hrg)⟩

theorem parseLines_vars (allG allV : List (List Char)) (gname : List Char) :
    ∀ (vs gvs0 : List CVar) (pre : Doc) (vm : List (List Char × CVal))
      (restLines : List (List Char)),
      vs.all (goodVarB (pre.map (fun g => g.1) ++ [gname]) allG allV) = true →
      (∀ x ∈ pre.map (fun g => g.1) ++ [gname], x ∈ allG) →
      (∀ v ∈ vs, ∀ lf, v.2 = CVal.leaf lf → v.1 ∈ allV) →
      (∀ kv ∈ vm, kv.1 ∈ allV) →
      ∃ vm2, (∀ kv ∈ vm2, kv.1 ∈ allV) ∧
        parseLines ⟨pre ++ [(gname, gvs0)], vm⟩
            (vs.map (varLine gname) ++ restLines) =
          parseLines ⟨pre ++ [(gname, gvs0 ++ vs)], vm2⟩ restLines := by
  intro vs
  induction vs with
  | nil =>
    intro gvs0 pre vm restLines _ _ _ hvm
    exact ⟨vm, hvm, by simp⟩
  | cons v vs ih =>
    intro gvs0 pre vm restLines hgood hsub hleaf hvm
    simp only [List.all_cons, Bool.and_eq_true] at hgood
    obtain ⟨hv, hvs⟩ := hgood
    have hdoc : pre ++ [(gname, gvs0)] ≠ ([] : Doc) := by simp
    obtain ⟨nm, val⟩ := v
    have hleaf1 := fun w hw => hleaf w (List.mem_cons_of_mem _ hw)
    cases val with
    | leaf lf =>
      simp only [goodVarB, Bool.and_eq_true] at hv
      obtain ⟨hnm, hlf⟩ := hv
      have hnmV : nm ∈ allV :=
        hleaf (nm, CVal.leaf lf) (List.mem_cons_self _ _) lf rfl
      cases nm with
      | nil => exact absurd hnm (by simp [goodVarNameB])
      | cons c cs =>
      obtain ⟨hcA, hallid⟩ := allid_of_goodName hnm
      have hvm1 : ∀ kv ∈ ((c :: cs, CVal.leaf lf) :: vm), kv.1 ∈ allV := by
        intro kv hkv
        rcases List.mem_cons.mp hkv with h1 | h1
        · rw [h1]; exact hnmV
        · exact hvm kv h1
      obtain ⟨vm2, hvm2, heq⟩ := ih (gvs0 ++ [(c :: cs, CVal.leaf lf)]) pre
        ((c :: cs, CVal.leaf lf) :: vm) restLines hvs hsub hleaf1 hvm1
      refine ⟨vm2, hvm2, ?_⟩
      have hassoc : (gvs0 ++ [(c :: cs, CVal.leaf lf)]) ++ vs =
          gvs0 ++ (c :: cs, CVal.leaf lf) :: vs := by simp
      rw [hassoc] at heq
      cases lf with
      | num n =>
        simp only [goodLeafB, decide_eq_true_eq] at hlf
        by_cases hgn : gname = imageCfgName
        · have hline : varLine gname (c :: cs, CVal.leaf (CLeaf.num n)) =
              (c :: cs) ++ (' ' :: '=' :: ' ' :: ('0' :: 'x' :: natToHex n)) := by
            simp [varLine, hgn, tlEqHex]
          have hstep := lineStep_kv ⟨pre ++ [(gname, gvs0)], vm⟩ c cs
            ('0' :: 'x' :: natToHex n) [] (CLeaf.num n) hdoc hcA hallid
            (parseExpr_hexnum _ n hlf)
          simp only [addVarLast_append, List.cons_append] at hstep
          simp only [List.map_cons, List.cons_append, hline]
          rw [parseLines_cons_some _ _ _ _ hstep, heq]
        · have hline : varLine gname (c :: cs, CVal.leaf (CLeaf.num n)) =
              (c :: cs) ++ (' ' :: '=' :: ' ' :: natToDec n) := by
            simp [varLine, hgn, tlEqPlain]
          have hstep := lineStep_kv ⟨pre ++ [(gname, gvs0)], vm⟩ c cs
            (natToDec n) [] (CLeaf.num n) hdoc hcA hallid
            (parseExpr_dec _ n hlf)
          simp only [addVarLast_append, List.cons_append] at hstep
          simp only [List.map_cons, List.cons_append, hline]
          rw [parseLines_cons_some _ _ _ _ hstep, heq]
      | str sv =>
        simp only [goodLeafB, Bool.and_eq_true, Bool.not_eq_eq_eq_not,
          Bool.not_true] at hlf
        have hline : varLine gname (c :: cs, CVal.leaf (CLeaf.str sv)) =
            (c :: cs) ++ (' ' :: '=' :: ' ' :: ('"' :: (sv ++ ['"']))) := by
          simp [varLine, tlEqSp]
        have hexpr := parseExpr_str_gen ⟨pre ++ [(gname, gvs0)], vm⟩ sv []
          (strChars_of_good hlf.1)
          (findGroupB_state_false pre gname gvs0 vm allG sv hsub hlf.2)
          skipWS_nil rfl
        simp only [List.append_nil] at hexpr
        have hstep := lineStep_kv ⟨pre ++ [(gname, gvs0)], vm⟩ c cs
          ('"' :: (sv ++ ['"'])) [] (CLeaf.str sv) hdoc hcA hallid hexpr
        simp only [addVarLast_append, List.cons_append] at hstep
        simp only [List.map_cons, List.cons_append, hline]
        rw [parseLines_cons_some _ _ _ _ hstep, heq]
      | ref r =>
        simp only [goodLeafB, Bool.and_eq_true, Bool.not_eq_eq_eq_not,
          Bool.not_true] at hlf
        obtain ⟨⟨hrn, hrg⟩, hrv⟩ := hlf
        cases r with
        | nil => exact absurd hrn (by simp [goodVarNameB])
        | cons rc rcs =>
        obtain ⟨hrcA, hrcall⟩ := allid_of_goodName hrn
        have hline : varLine gname (c :: cs, CVal.leaf (CLeaf.ref (rc :: rcs))) =
            (c :: cs) ++ (' ' :: '=' :: ' ' :: (rc :: rcs)) := by
          simp [varLine, tlEqPlain]
        have hexpr := parseExpr_ref_gen ⟨pre ++ [(gname, gvs0)], vm⟩ rc rcs []
          hrcA hrcall
          (findVar_state_none _ vm allV _ hvm hrv)
          (findGroupB_state_true pre gname gvs0 vm _ (mem_of_containsN _ _ hrg))
          (by intro x hx; simp at hx) skipWS_nil rfl
        simp only [List.append_nil] at hexpr
        have hstep := lineStep_kv ⟨pre ++ [(gname, gvs0)], vm⟩ c cs
          (rc :: rcs) [] (CLeaf.ref (rc :: rcs)) hdoc hcA hallid hexpr
        simp only [addVarLast_append, List.cons_append] at hstep
        simp only [List.map_cons, List.cons_append, hline]
        rw [parseLines_cons_some _ _ _ _ hstep, heq]
    | lst items =>
      simp only [goodVarB, Bool.and_eq_true] at hv
      obtain ⟨hnme, hitems⟩ := hv
      have hnm : nm = [] := by simpa using hnme
      subst hnm
      have hok : ∀ it ∈ items, ItemOk ⟨pre ++ [(gname, gvs0)], vm⟩ it := by
        intro it hit
        exact itemOk_of_good pre gname gvs0 vm allG allV hsub hvm it
          (List.all_eq_true.mp hitems it hit)
      have hpl := parseListItem_items ⟨pre ++ [(gname, gvs0)], vm⟩ gname
        items hok
      have hstep := lineStep_list ⟨pre ++ [(gname, gvs0)], vm⟩
        (' ' :: (dumpItems gname items ++ ['}', ','])) items [','] hdoc hpl
      simp only [addVarLast_append] at hstep
      have hline : varLine gname ([], CVal.lst items) =
          '{' :: (' ' :: (dumpItems gname items ++ ['}', ','])) := by
        simp [varLine, tlBraceOpen, tlBraceClose]
      obtain ⟨vm2, hvm2, heq⟩ := ih (gvs0 ++ [([], CVal.lst items)]) pre
        vm restLines hvs hsub hleaf1 hvm
      refine ⟨vm2, hvm2, ?_⟩
      have hassoc : (gvs0 ++ [([], CVal.lst items)]) ++ vs =
          gvs0 ++ ([], CVal.lst items) :: vs := by simp
      rw [hassoc] at heq
      simp only [List.map_cons, List.cons_append, hline]
      rw [parseLines_cons_some _ _ _ _ hstep, heq]

theorem parseLines_nil (t : PState) : parseLines t [] = some t := rfl

/-! ## Reparsing the serialized groups -/

theorem parseLines_groups (allG allV : List (List Char)) :
    ∀ (rest : Doc) (d0 : Doc) (vm0 : List (List Char × CVal))
      (restLines : List (List Char)),
      goodGroupsB allG allV (d0.map (fun g => g.1)) rest = true →
      (∀ x ∈ d0.map (fun g => g.1), x ∈ allG) →
      (∀ g ∈ rest, g.1 ∈ allG) →
      (∀ g ∈ rest, ∀ v ∈ g.2, ∀ lf, v.2 = CVal.leaf lf → v.1 ∈ allV) →
      (∀ kv ∈ vm0, kv.1 ∈ allV) →
      ∃ vm2, parseLines ⟨d0, vm0⟩ (docLines rest ++ restLines) =
        parseLines ⟨d0 ++ rest, vm2⟩ restLines := by
  intro rest
  induction rest with
  | nil =>
    intro d0 vm0 restLines _ _ _ _ _
    exact ⟨vm0, by simp [docLines]⟩
  | cons g rest ih =>
    intro d0 vm0 restLines hgood hsub hrG hrV hvm0
    obtain ⟨gn, gvs⟩ := g
    simp only [goodGroupsB, Bool.and_eq_true] at hgood
    obtain ⟨⟨hgn, hgvs⟩, hrest⟩ := hgood
    have hgnG : gn ∈ allG := hrG (gn, gvs) (List.mem_cons_self _ _)
    have hsub1 : ∀ x ∈ d0.map (fun g => g.1) ++ [gn], x ∈ allG := by
      intro x hx
      rcases List.mem_append.mp hx with h | h
      · exact hsub x h
      · simp only [List.mem_cons, List.not_mem_nil, or_false] at h
        exact h ▸ hgnG
    have hstep := lineStep_group ⟨d0, vm0⟩ gn hgn
    have hvars := parseLines_vars allG allV gn gvs [] d0 vm0
      ([] :: (docLines rest ++ restLines)) hgvs hsub1
      (fun v hv lf hlf =>
        hrV (gn, gvs) (List.mem_cons_self _ _) v hv lf hlf) hvm0
    obtain ⟨vm1, hvm1, heq1⟩ := hvars
    simp only [List.nil_append] at heq1
    have hblank := parseLines_cons_some ⟨d0 ++ [(gn, gvs)], vm1⟩
      ⟨d0 ++ [(gn, gvs)], vm1⟩ [] (docLines rest ++ restLines)
      (lineStep_blank _)
    have hrec := ih (d0 ++ [(gn, gvs)]) vm1 restLines (by
        rw [groupNames_state]
        exact hrest)
      (by
        rw [groupNames_state]
        exact hsub1)
      (fun x hx => hrG x (List.mem_cons_of_mem _ hx))
      (fun x hx => hrV x (List.mem_cons_of_mem _ hx)) hvm1
    obtain ⟨vm2, heq2⟩ := hrec
    refine ⟨vm2, ?_⟩
    simp only [docLines, groupLines, List.cons_append, List.append_assoc,
      List.nil_append]
    rw [parseLines_cons_some _ _ _ _ hstep]
    rw [heq1, hblank, heq2]
    simp

/-- C3 (amended): for every nonempty document in the round-trip fragment —
groups with nonempty alphabetic names; variables that are named leaves
(Numbers below 2^32; Strings without `"`, backslash or newline that do not
collide with a group name; References naming an earlier group and no
top-level variable) or anonymous lists of String/Reference children under
the same conditions — re-parsing the serializer output, split into
`getline` lines, reproduces the document exactly: same groups in order,
same variables in order, same kinds and values.  (As stated over all
parseable documents the claim fails: `c3_escape_counterexample`.) -/
theorem c3_parse_serialize_roundtrip (d : Doc) (h : goodDocB d = true) :
    (parseDoc (splitNl (dumpToStringCFG d))).map (fun s => s.doc) = some d := by
  simp only [goodDocB, Bool.and_eq_true] at h
  obtain ⟨hne, hgroups⟩ := h
  have hdne : d ≠ [] := by simpa using hne
  rw [dumpToString_eq_join d hdne]
  rw [splitNl_joinNl _ (noNl_docLines (d.map (fun g => g.1)) (topVarNames d)
    d [] hgroups)]
  have hmain := parseLines_groups (d.map (fun g => g.1)) (topVarNames d)
    d ([] : Doc) ([] : List (List Char × CVal)) ([] : List (List Char))
    hgroups (by intro x hx; simp at hx)
    (by intro g hg; exact List.mem_map_of_mem _ hg)
    (by
      intro g hg v hv lf hlf
      simp only [topVarNames, List.mem_flatMap]
      refine ⟨g, hg, ?_⟩
      simp only [List.mem_filterMap]
      exact ⟨v, hv, by rw [hlf]⟩)
    (by intro kv hkv; simp at hkv)
  obtain ⟨vm2, heq⟩ := hmain
  simp only [List.append_nil, List.nil_append] at heq
  rw [parseDoc, heq, parseLines_nil]
  rfl

/-- Witness for C3: a concrete document with all four variable kinds —
a String, an anonymous list with String and Reference children, a Number
and a Reference — lies in the fragment and round-trips. -/
theorem c3_parse_serialize_roundtrip_witness :
    goodDocB goodDocWitness = true ∧
    (parseDoc (splitNl (dumpToStringCFG goodDocWitness))).map
        (fun s => s.doc) = some goodDocWitness :=
  ⟨by decide, c3_parse_serialize_roundtrip goodDocWitness (by decide)⟩

/-- Counterexample to C3 as stated: the parseable input `[G]` /
`x = "a\"b"` produces a document whose String value contains `"`; the
serializer does not escape it, so re-parsing the serialized form does not
reproduce the document. -/
theorem c3_escape_counterexample :
    (parseDoc cexLinesC3).map (fun s => s.doc) = some cexDocC3 ∧
    (parseDoc (splitNl (dumpToStringCFG cexDocC3))).map (fun s => s.doc) ≠
      some cexDocC3 := by
  constructor
  · decide
  · decide

/-! ## Expression concatenation (C7) -/

theorem natToHex_42 : natToHex 42 = ['2', 'a'] := by
  rw [natToHex_ge (by omega)]
  rw [show (42 : Nat) / 16 = 2 from by omega, show (42 : Nat) % 16 = 10 from by omega]
  rw [natToHex_lt (by omega)]
  rfl

theorem exprAtomsLoop_cons_space (s : PState) (f : Nat) (l acc : List Char)
    (isStr : Bool) :
    exprAtomsLoop s (f + 1) (' ' :: l) acc isStr =
      exprAtomsLoop s (f + 1) l acc isStr := by
  cases l with
  | nil =>
    conv_lhs => rw [exprAtomsLoop]
    conv_rhs => rw [exprAtomsLoop]
    rw [if_neg (by simp), if_pos rfl]
    rw [show skipWS [' '] = [] from by decide]
  | cons c cs =>
    conv_lhs => rw [exprAtomsLoop]
    conv_rhs => rw [exprAtomsLoop]
    rw [if_neg (by simp), if_neg (by simp), skipWS_cons_space]

/-- A string atom continued by `..`. -/
theorem exprAtomsLoop_str_dotdot (s : PState) (f : Nat) (v rest acc : List Char)
    (isStr : Bool) (hv : ∀ c ∈ v, c ≠ '"' ∧ c ≠ '\\')
    (hdd : isDotDot (skipWS rest) = true) :
    exprAtomsLoop s (f + 1) ('"' :: ((v ++ ['"']) ++ rest)) acc isStr =
      exprAtomsLoop s f ((skipWS rest).drop 2) (acc ++ v) true := by
  have hsk : skipWS ('"' :: ((v ++ ['"']) ++ rest)) = '"' :: ((v ++ ['"']) ++ rest) :=
    skipWS_id _ (by intro x hx; cases Option.some.inj hx; exact ⟨by decide, by decide⟩)
  rw [exprAtomsLoop]
  rw [if_neg (by simp)]
  rw [hsk]
  simp only
  rw [if_pos (Or.inl trivial)]
  rw [parseStringL_quote v rest hv]
  simp only [hdd, if_true]

/-- C7: in a parser state with no group named `ab` or `0x2a`, the key-value
line `x = "a" .. "b"` parses to a String variable `x` with value `ab`
(string atoms joined by `..` concatenate), and when the flat variable index
maps `SOMEVAR` to a Number 42, the line `x = SOMEVAR` parses to a String
variable `x` with value `0x2a` (a Number-valued identifier substitutes in
`0x%x` form). -/
theorem c7_expression_concatenation (s : PState)
    (h1 : findGroupB s "ab".toList = false)
    (h2 : findGroupB s "0x2a".toList = false)
    (h3 : findVar s "SOMEVAR".toList = some (CVal.leaf (CLeaf.num 42))) :
    (parseKeyValueL s ("x = \"a\" .. \"b\"").toList).1 =
      some ("x".toList, CVal.leaf (CLeaf.str "ab".toList)) ∧
    (parseKeyValueL s ("x = SOMEVAR").toList).1 =
      some ("x".toList, CVal.leaf (CLeaf.str "0x2a".toList)) := by
  have h1' : findGroupB s ('a' :: 'b' :: []) = false := h1
  have h2' : findGroupB s ('0' :: 'x' :: '2' :: 'a' :: []) = false := h2
  have h3' : findVar s ('S' :: 'O' :: 'M' :: 'E' :: 'V' :: 'A' :: 'R' :: []) =
      some (CVal.leaf (CLeaf.num 42)) := h3
  constructor
  · -- x = "a" .. "b"
    have hexprA : parseExpressionL s
        (' ' :: '"' :: 'a' :: '"' :: ' ' :: '.' :: '.' :: ' ' :: '"' :: 'b' :: '"' :: []) =
        (CLeaf.str ('a' :: 'b' :: []), []) := by
      have hsk : skipWS
          (' ' :: '"' :: 'a' :: '"' :: ' ' :: '.' :: '.' :: ' ' :: '"' :: 'b' :: '"' :: []) =
          '"' :: 'a' :: '"' :: ' ' :: '.' :: '.' :: ' ' :: '"' :: 'b' :: '"' :: [] := by
        decide
      simp only [parseExpressionL, hsk]
      rw [if_neg (by decide)]
      rw [show ('"' :: 'a' :: '"' :: ' ' :: '.' :: '.' :: ' ' :: '"' :: 'b' :: '"' ::
        ([] : List Char)).length + 1 = 10 + 1 from rfl]
      have hstep1 := exprAtomsLoop_str_dotdot s 10 ['a']
        (' ' :: '.' :: '.' :: ' ' :: '"' :: 'b' :: '"' :: []) [] false
        (by decide) (by decide)
      simp only [List.cons_append, List.nil_append] at hstep1
      rw [hstep1]
      rw [show skipWS (' ' :: '.' :: '.' :: ' ' :: '"' :: 'b' :: '"' :: ([] : List Char)) =
        '.' :: '.' :: ' ' :: '"' :: 'b' :: '"' :: [] from by decide]
      rw [show ('.' :: '.' :: ' ' :: '"' :: 'b' :: '"' :: ([] : List Char)).drop 2 =
        ' ' :: '"' :: 'b' :: '"' :: [] from rfl]
      rw [show (10 : Nat) = 9 + 1 from rfl]
      rw [exprAtomsLoop_cons_space]
      have hstep2 := exprAtomsLoop_str_once s 9 ['b'] [] ['a'] true
        (by decide) (by decide)
      simp only [List.cons_append, List.nil_append, List.append_nil] at hstep2
      rw [hstep2]
      rw [show skipWS ([] : List Char) = [] from by decide]
      simp only [List.cons_append, List.nil_append]
      rw [h1']
      simp
    have hkv := parseKV_exact s 'x' []
      ('"' :: 'a' :: '"' :: ' ' :: '.' :: '.' :: ' ' :: '"' :: 'b' :: '"' :: [])
      [] (CLeaf.str ('a' :: 'b' :: [])) (by decide) (by decide) hexprA
    simp only [List.cons_append, List.nil_append] at hkv
    show (parseKeyValueL s ('x' :: ' ' :: '=' :: ' ' :: '"' :: 'a' :: '"' :: ' ' ::
      '.' :: '.' :: ' ' :: '"' :: 'b' :: '"' :: [])).1 =
      some ('x' :: [], CVal.leaf (CLeaf.str ('a' :: 'b' :: [])))
    rw [hkv]
  · -- x = SOMEVAR
    have hexprB : parseExpressionL s
        (' ' :: 'S' :: 'O' :: 'M' :: 'E' :: 'V' :: 'A' :: 'R' :: []) =
        (CLeaf.str ('0' :: 'x' :: '2' :: 'a' :: []), []) := by
      have hsk : skipWS (' ' :: 'S' :: 'O' :: 'M' :: 'E' :: 'V' :: 'A' :: 'R' :: []) =
          'S' :: 'O' :: 'M' :: 'E' :: 'V' :: 'A' :: 'R' :: [] := by decide
      simp only [parseExpressionL, hsk]
      rw [if_neg (by decide)]
      rw [show ('S' :: 'O' :: 'M' :: 'E' :: 'V' :: 'A' :: 'R' ::
        ([] : List Char)).length + 1 = 7 + 1 from rfl]
      have hstep := exprAtomsLoop_ident_once s 7 'S'
        ['O', 'M', 'E', 'V', 'A', 'R'] [] [] ('0' :: 'x' :: '2' :: 'a' :: []) false
        (by decide) (by decide) (by intro x hx; simp at hx) (by decide)
        (by
          rw [h3']
          show '0' :: 'x' :: natToHex 42 = '0' :: 'x' :: '2' :: 'a' :: []
          rw [natToHex_42])
      simp only [List.cons_append, List.nil_append, List.append_nil] at hstep
      rw [hstep]
      rw [show skipWS ([] : List Char) = [] from by decide]
      rw [h2']
      simp
    have hkv := parseKV_exact s 'x' []
      ('S' :: 'O' :: 'M' :: 'E' :: 'V' :: 'A' :: 'R' :: [])
      [] (CLeaf.str ('0' :: 'x' :: '2' :: 'a' :: [])) (by decide) (by decide) hexprB
    simp only [List.cons_append, List.nil_append] at hkv
    show (parseKeyValueL s ('x' :: ' ' :: '=' :: ' ' :: 'S' :: 'O' :: 'M' :: 'E' ::
      'V' :: 'A' :: 'R' :: [])).1 =
      some ('x' :: [], CVal.leaf (CLeaf.str ('0' :: 'x' :: '2' :: 'a' :: [])))
    rw [hkv]

/-- Witness for C7: a concrete state with one group `G` and the flat index
mapping `SOMEVAR` to Number 42 satisfies the hypotheses, and both lines
parse to the claimed String variables. -/
theorem c7_expression_concatenation_witness :
    (findGroupB ⟨[("G".toList, [])],
        [("SOMEVAR".toList, CVal.leaf (CLeaf.num 42))]⟩ "ab".toList = false ∧
     findGroupB ⟨[("G".toList, [])],
        [("SOMEVAR".toList, CVal.leaf (CLeaf.num 42))]⟩ "0x2a".toList = false ∧
     findVar ⟨[("G".toList, [])],
        [("SOMEVAR".toList, CVal.leaf (CLeaf.num 42))]⟩ "SOMEVAR".toList =
       some (CVal.leaf (CLeaf.num 42))) ∧
    ((parseKeyValueL ⟨[("G".toList, [])],
        [("SOMEVAR".toList, CVal.leaf (CLeaf.num 42))]⟩
        ("x = \"a\" .. \"b\"").toList).1 =
      some ("x".toList, CVal.leaf (CLeaf.str "ab".toList)) ∧
     (parseKeyValueL ⟨[("G".toList, [])],
        [("SOMEVAR".toList, CVal.leaf (CLeaf.num 42))]⟩
        ("x = SOMEVAR").toList).1 =
      some ("x".toList, CVal.leaf (CLeaf.str "0x2a".toList))) :=
  ⟨⟨by decide, by decide, by decide⟩,
    c7_expression_concatenation _ (by decide) (by decide) (by decide)⟩

/-! ## Per-line fatality (C6) -/

theorem lineStep_eq_branch (s : PState) (line : List Char) (c : Char)
    (r1 : List Char) (hd : line.dropWhile isSpaceC = c :: r1) (hc : c ≠ ';') :
    lineStep s line =
      (if c = '#' then some s
       else if c = '[' then
         match parseGroupL (c :: r1) with
         | some g => some ⟨s.doc ++ [(g, [])], s.vmap⟩
         | none => none
       else if c = '{' then
         if s.doc = [] then some s
         else
           match parseListItemL s (c :: r1) with
           | some (v, _) => some ⟨addVarLast s.doc ([], v), s.vmap⟩
           | none => none
       else if isAlphaC c then
         if s.doc = [] then some s
         else
           match (parseKeyValueL s (c :: r1)).1 with
           | some v => some ⟨addVarLast s.doc v, v :: s.vmap⟩
           | none => none
       else none) := by
  have hline : line ≠ [] := by
    intro he
    rw [he] at hd
    simp at hd
  have hsk : skipWS line = c :: r1 := by
    simp only [skipWS, hd, List.head?_cons]
    rw [if_neg (fun he => hc (Option.some.inj he))]
  simp only [lineStep, if_neg hline, hsk]
  simp only [show (c = ';' ∨ c = '#') ↔ (c = '#') from by simp [hc]]

/-- C6 (amended): a blank or comment line (`;` or `#` first) is never
fatal; a `[` line is fatal exactly when the group header fails to parse
(missing `]` or empty name); a `{` or identifier line before any group has
been opened is skipped with the state unchanged, and inside a group it is
fatal exactly when the list item, respectively the key-value, fails to
parse; every other first character — including a digit — is fatal.  (As
stated the claim is wrong about digits: `c6_digit_counterexample`.) -/
theorem c6_line_fatality (s : PState) (line : List Char) :
    (line.dropWhile isSpaceC = [] → lineStep s line = some s) ∧
    (∀ r, line.dropWhile isSpaceC = ';' :: r → lineStep s line = some s) ∧
    (∀ r, line.dropWhile isSpaceC = '#' :: r → lineStep s line = some s) ∧
    (∀ r, line.dropWhile isSpaceC = '[' :: r →
      (lineStep s line = none ↔ parseGroupL ('[' :: r) = none)) ∧
    (∀ r, line.dropWhile isSpaceC = '{' :: r →
      (s.doc = [] → lineStep s line = some s) ∧
      (s.doc ≠ [] →
        (lineStep s line = none ↔ parseListItemL s ('{' :: r) = none))) ∧
    (∀ c r, line.dropWhile isSpaceC = c :: r → isAlphaC c = true →
      (s.doc = [] → lineStep s line = some s) ∧
      (s.doc ≠ [] →
        (lineStep s line = none ↔ (parseKeyValueL s (c :: r)).1 = none))) ∧
    (∀ c r, line.dropWhile isSpaceC = c :: r → c ≠ '[' → c ≠ '{' → c ≠ ';' →
      c ≠ '#' → isAlphaC c = false → lineStep s line = none) := by
  refine ⟨?_, ?_, ?_, ?_, ?_, ?_, ?_⟩
  · intro hd
    by_cases hline : line = []
    · rw [hline]; rfl
    · have hsk : skipWS line = [] := by simp [skipWS, hd]
      simp only [lineStep, if_neg hline, hsk]
  · intro r hd
    have hline : line ≠ [] := by
      intro he
      rw [he] at hd
      simp at hd
    have hsk : skipWS line = [] := by simp [skipWS, hd]
    simp only [lineStep, if_neg hline, hsk]
  · intro r hd
    rw [lineStep_eq_branch s line '#' r hd (by decide)]
    rw [if_pos rfl]
  · intro r hd
    rw [lineStep_eq_branch s line '[' r hd (by decide)]
    rw [if_neg (by decide), if_pos rfl]
    cases hpg : parseGroupL ('[' :: r) <;> simp [hpg]
  · intro r hd
    rw [lineStep_eq_branch s line '{' r hd (by decide)]
    rw [if_neg (by decide), if_neg (by decide), if_pos rfl]
    constructor
    · intro hdoc
      rw [if_pos hdoc]
    · intro hdoc
      rw [if_neg hdoc]
      cases hpl : parseListItemL s ('{' :: r) with
      | none => simp [hpl]
      | some v =>
        obtain ⟨v1, v2⟩ := v
        simp [hpl]
  · intro c r hd hcA
    rw [lineStep_eq_branch s line c r hd (alpha_ne_of hcA ';' (by decide))]
    rw [if_neg (alpha_ne_of hcA '#' (by decide)),
      if_neg (alpha_ne_of hcA '[' (by decide)),
      if_neg (alpha_ne_of hcA '{' (by decide)), if_pos hcA]
    constructor
    · intro hdoc
      rw [if_pos hdoc]
    · intro hdoc
      rw [if_neg hdoc]
      cases hkv : (parseKeyValueL s (c :: r)).1 <;> simp [hkv]
  · intro c r hd h1 h2 h3 h4 h5
    rw [lineStep_eq_branch s line c r hd h3]
    rw [if_neg h4, if_neg h1, if_neg h2, if_neg (by simp [h5])]

/-- Witness for C6: on the digit line `1` with an empty state, the parse is
fatal. -/
theorem c6_line_fatality_witness :
    ("1".toList.dropWhile isSpaceC = '1' :: [] ∧ isAlphaC '1' = false) ∧
    lineStep ⟨[], []⟩ "1".toList = none :=
  ⟨⟨by decide, by decide⟩,
    (c6_line_fatality ⟨[], []⟩ "1".toList).2.2.2.2.2.2 '1' [] (by decide)
      (by decide) (by decide) (by decide) (by decide) (by decide)⟩

/-- Counterexample to C6 as stated: the claim's character classes call a
digit-leading line non-fatal, but the parser aborts on `1` (the
`throw std::runtime_error("Unknown line format")` branch). -/
theorem c6_digit_counterexample :
    fatalClaimedC6 "1".toList = false ∧ lineStep ⟨[], []⟩ "1".toList = none := by
  constructor
  · decide
  · decide

/-! ## Serializer formats (C8) -/

theorem dumpItem_eq_render (gname : List Char) (it : List Char × CLeaf) :
    dumpItem gname it = renderItemSpec (decide (gname = imageCfgName)) it := by
  obtain ⟨inm, ival⟩ := it
  cases ival with
  | num n =>
    simp only [dumpItem, renderItemSpec, renderLeafSpec, tlEqHex, tlEqPlain]
    by_cases h : gname = imageCfgName
    · simp [h, List.append_assoc]
    · simp [h, List.append_assoc]
  | str sv =>
    simp [dumpItem, renderItemSpec, renderLeafSpec, tlEqSp, tlQuoteComma,
      List.append_assoc]
  | ref r =>
    simp [dumpItem, renderItemSpec, renderLeafSpec, tlEqPlain, tlComma,
      List.append_assoc]

theorem dumpItems_eq_render (gname : List Char) :
    ∀ items : List (List Char × CLeaf),
      dumpItems gname items =
        (items.map (renderItemSpec (decide (gname = imageCfgName)))).flatten := by
  intro items
  induction items with
  | nil => rfl
  | cons it rest ih =>
    simp only [dumpItems, List.map_cons, List.flatten_cons, ih,
      dumpItem_eq_render]

theorem dumpVar_eq_render (gname : List Char) (v : CVar) :
    dumpVar gname v = renderVarSpec (decide (gname = imageCfgName)) v := by
  obtain ⟨nm, val⟩ := v
  cases val with
  | leaf lf =>
    cases lf with
    | num n =>
      simp only [dumpVar, renderVarSpec, renderLeafSpec, tlEqHex, tlEqPlain]
      by_cases h : gname = imageCfgName
      · simp [h, List.append_assoc]
      · simp [h, List.append_assoc]
    | str sv =>
      simp [dumpVar, renderVarSpec, renderLeafSpec, tlEqSp, tlQuoteNl,
        List.append_assoc]
    | ref r =>
      simp [dumpVar, renderVarSpec, renderLeafSpec, tlEqPlain,
        List.append_assoc]
  | lst items =>
    simp only [dumpVar, renderVarSpec, dumpItems_eq_render, tlBraceOpen,
      tlBraceCloseNl]
    cases nm with
    | nil => simp
    | cons c cs => simp [List.append_assoc]

theorem dumpVars_eq_render (gname : List Char) :
    ∀ vs : List CVar,
      dumpVars gname vs =
        (vs.map (renderVarSpec (decide (gname = imageCfgName)))).flatten := by
  intro vs
  induction vs with
  | nil => rfl
  | cons v rest ih =>
    simp only [dumpVars, List.map_cons, List.flatten_cons, ih,
      dumpVar_eq_render]

theorem dumpGroup_eq_render (g : CGroup) :
    dumpGroup g = renderGroupSpec g := by
  simp only [dumpGroup, renderGroupSpec, dumpVars_eq_render]
  simp [List.append_assoc]

/-- C8 (amended): the serializer renders Numbers in the group `IMAGE_CFG`
as `0x` plus lowercase hex and as decimal elsewhere; Strings double-quoted;
References bare; and a list variable on one line as `name={ k = v, … },` —
with an `=` between the name and the brace (the claim's `name{ … },` form
is wrong: `c8_list_format_counterexample`) — where the name and the `=`
are omitted when the list is anonymous; Number list children are followed
by a newline instead of the `", "` separator. -/
theorem c8_serializer_formats (d : Doc) :
    dumpToStringCFG d = renderDocSpec d := by
  simp only [dumpToStringCFG, renderDocSpec]
  cases hd : d.isEmpty
  · rw [if_neg (by simpa using hd), if_neg (by simp)]
    clear hd
    induction d with
    | nil => rfl
    | cons g rest ih =>
      simp only [dumpGroups, List.map_cons, List.flatten_cons,
        dumpGroup_eq_render, ih]
  · rw [if_pos (List.isEmpty_iff.mp hd), if_pos rfl]

/-- Counterexample to C8 as stated: on a document with a named list
variable `l`, the serializer emits `l={ k = "v", },` while the claimed
format says `l{ k = "v", },`. -/
theorem c8_list_format_counterexample :
    dumpToStringCFG cexDocC8 ≠ dumpToStringClaimed cexDocC8 := by
  decide

end OpenixCFG

namespace OpenixPartition

/-! ## `[mbr]` size parsing (C9) -/

theorem tlSizeEq : ("size = " : String).toList =
    ['s', 'i', 'z', 'e', ' ', '=', ' '] := rfl

theorem digit_not_partSpace {c : Char} (h : OpenixCFG.isDigitC c = true) :
    partSpace c = false := by
  simp only [partSpace, Bool.or_eq_false_iff, beq_eq_false_iff_ne, ne_eq]
  refine ⟨⟨?_, ?_⟩, ?_⟩ <;> intro he <;> rw [he] at h <;> exact absurd h (by decide)

theorem partDigits_run {p : Char → Bool} {v : Char → Nat} {b : Nat} :
    ∀ (ds r : List Char) (acc : Nat), (∀ c ∈ ds, p c = true) →
      (∀ c, r.head? = some c → p c = false) →
      partDigits p v b (ds ++ r) acc =
        (ds.foldl (fun a c => (a * b + v c) % u64Mod) acc, r) := by
  intro ds
  induction ds with
  | nil =>
    intro r acc _ hr
    cases r with
    | nil => rfl
    | cons c rest =>
      show partDigits p v b (c :: rest) acc = (acc, c :: rest)
      rw [partDigits.eq_def]
      simp [hr c rfl]
  | cons d ds ih =>
    intro r acc hds hr
    show partDigits p v b (d :: (ds ++ r)) acc = _
    rw [partDigits.eq_def]
    simp only [hds d (List.mem_cons_self d ds), if_true, List.foldl]
    exact ih r ((acc * b + v d) % u64Mod)
      (fun x hx => hds x (List.mem_cons_of_mem d hx)) hr

theorem foldl_mod10 : ∀ (ds : List Char) (acc : Nat),
    ds.foldl (fun a c => (a * 10 + OpenixCFG.hexVal c) % u64Mod) (acc % u64Mod) =
      (ds.foldl (fun a c => a * 10 + OpenixCFG.hexVal c) acc) % u64Mod := by
  intro ds
  induction ds with
  | nil => intro acc; rfl
  | cons c cs ih =>
    intro acc
    simp only [List.foldl]
    rw [show (acc % u64Mod * 10 + OpenixCFG.hexVal c) % u64Mod =
      (acc * 10 + OpenixCFG.hexVal c) % u64Mod from by unfold u64Mod; omega]
    exact ih (acc * 10 + OpenixCFG.hexVal c)

theorem partNumber_natToDec (N : Nat) :
    partNumber (OpenixCFG.natToDec N) = (N % u64Mod, []) := by
  obtain ⟨c, cs, hd, hdig⟩ := OpenixCFG.natToDec_head_digit N
  have hsk : partSkipWS (OpenixCFG.natToDec N) = OpenixCFG.natToDec N := by
    refine OpenixCFG.dropWhile_false_head _ ?_
    rw [hd]
    intro x hx
    cases Option.some.inj hx
    exact digit_not_partSpace hdig
  simp only [partNumber, hsk]
  rw [if_neg (by
    by_cases h10 : N < 10
    · rw [OpenixCFG.natToDec_lt h10]
      rintro ⟨-, h | h⟩ <;> simp at h
    · obtain ⟨c2, cs2, hd2, _, hne0⟩ := OpenixCFG.natToDec_head_pos N (by omega)
      rw [hd2]
      rintro ⟨h0, -⟩
      rw [List.head?_cons] at h0
      exact hne0 (Option.some.inj h0))]
  have hrun := @partDigits_run OpenixCFG.isDigitC OpenixCFG.hexVal 10
    (OpenixCFG.natToDec N) [] 0
    (OpenixCFG.natToDec_all_digit N) (by intro x hx; simp at hx)
  simp only [List.append_nil] at hrun
  rw [hrun]
  have hm := foldl_mod10 (OpenixCFG.natToDec N) 0
  simp only [Nat.zero_mod] at hm
  rw [hm, OpenixCFG.foldl_natToDec N 0]
  simp

theorem trimLine_id (l : List Char)
    (h1 : ∀ c, l.head? = some c → partSpace c = false)
    (h2 : ∀ c, l.reverse.head? = some c → partSpace c = false) :
    trimLine l = l := by
  simp only [trimLine]
  rw [OpenixCFG.dropWhile_false_head l h1]
  rw [OpenixCFG.dropWhile_false_head l.reverse h2]
  exact List.reverse_reverse l

theorem partLineStep_size (st : PartParseState) (N : Nat)
    (hmbr : st.inMbr = true) (hpart : st.inPart = false) :
    partLineStep st (("size = ").toList ++ OpenixCFG.natToDec N) =
      { st with mbrSize := N % 4294967296 } := by
  obtain ⟨d, ds, hrev⟩ : ∃ d ds, (OpenixCFG.natToDec N).reverse = d :: ds := by
    cases hr : (OpenixCFG.natToDec N).reverse with
    | nil => exact absurd (List.reverse_eq_nil_iff.mp hr) (OpenixCFG.natToDec_ne_nil N)
    | cons d ds => exact ⟨d, ds, rfl⟩
  have hdmem : d ∈ OpenixCFG.natToDec N := by
    rw [← List.mem_reverse, hrev]
    exact List.mem_cons_self _ _
  have hddig := OpenixCFG.natToDec_all_digit N d hdmem
  simp only [tlSizeEq, List.cons_append, List.nil_append]
  simp only [partLineStep]
  rw [trimLine_id _ (by
      intro x hx
      cases Option.some.inj hx
      decide)
    (by
      intro x hx
      rw [show ('s' :: 'i' :: 'z' :: 'e' :: ' ' :: '=' :: ' ' ::
          OpenixCFG.natToDec N).reverse =
        (OpenixCFG.natToDec N).reverse ++
          [' ', '=', ' ', 'e', 'z', 'i', 's'] from by simp] at hx
      rw [hrev, List.cons_append, List.head?_cons] at hx
      cases Option.some.inj hx
      exact digit_not_partSpace hddig)]
  rw [if_neg (by simp)]
  rw [if_neg (by simp)]
  rw [if_neg (by simp [List.take])]
  rw [if_neg (by simp)]
  rw [if_neg (by simp)]
  rw [if_neg (by simp)]
  have hmstep : mbrStep st ('s' :: 'i' :: 'z' :: 'e' :: ' ' :: '=' :: ' ' ::
      OpenixCFG.natToDec N) = { st with mbrSize := N % 4294967296 } := by
    simp only [mbrStep]
    rw [show partSkipWS ('s' :: 'i' :: 'z' :: 'e' :: ' ' :: '=' :: ' ' ::
      OpenixCFG.natToDec N) = 's' :: 'i' :: 'z' :: 'e' :: ' ' :: '=' :: ' ' ::
      OpenixCFG.natToDec N from by simp [partSkipWS, List.dropWhile_cons, partSpace]]
    rw [if_pos (by simp [List.take])]
    rw [show ('s' :: 'i' :: 'z' :: 'e' :: ' ' :: '=' :: ' ' ::
      OpenixCFG.natToDec N).drop 4 = ' ' :: '=' :: ' ' :: OpenixCFG.natToDec N
      from by simp [List.drop]]
    rw [show partSkipWS (' ' :: '=' :: ' ' :: OpenixCFG.natToDec N) =
      '=' :: ' ' :: OpenixCFG.natToDec N from by
        simp [partSkipWS, List.dropWhile_cons, partSpace]]
    have hsk4 : partSkipWS (' ' :: OpenixCFG.natToDec N) = OpenixCFG.natToDec N := by
      simp only [partSkipWS, List.dropWhile_cons, show partSpace ' ' = true from rfl,
        if_true]
      exact OpenixCFG.dropWhile_false_head _ (by
        intro x hx
        obtain ⟨c, cs, hd, hdig⟩ := OpenixCFG.natToDec_head_digit N
        rw [hd, List.head?_cons] at hx
        cases Option.some.inj hx
        exact digit_not_partSpace hdig)
    split
    · rename_i l3 heq
      injection heq with h1 h2
      subst h2
      rw [hsk4]
      rw [if_neg (OpenixCFG.natToDec_ne_nil N)]
      rw [partNumber_natToDec]
      rw [show (N % u64Mod, ([] : List Char)).1 % 4294967296 = N % 4294967296 from by
        unfold u64Mod
        show N % 18446744073709551616 % 4294967296 = N % 4294967296
        omega]
    · rename_i h
      exact absurd (h (' ' :: OpenixCFG.natToDec N) rfl) not_false
  simp [hmbr, hpart, hmstep]

/-- C9 (amended): parsing an input consisting of the section header `[mbr]`
followed by `size = N` (decimal rendering of any natural N) succeeds with
no partition records and with `mbr_size` equal to N reduced modulo 2^32 —
`parseNumber` accumulates into a `uint64_t` and `parseFromStream` casts the
value with `static_cast<uint32_t>`, so values of 2^32 and above wrap
(`c9_wrap_counterexample`) rather than being stored as N. -/
theorem c9_mbr_size_parse (N : Nat) :
    parseFromLines ["[mbr]".toList, ("size = ").toList ++ OpenixCFG.natToDec N] =
      { mbrSize := N % 4294967296, partitions := [] } := by
  simp only [parseFromLines, List.foldl]
  rw [show partLineStep { inMbr := false, inPart := false, mbrSize := 0, current := emptyPartition, parts := [] } ("[mbr]").toList = { inMbr := true, inPart := false, mbrSize := 0, current := emptyPartition, parts := [] } from rfl]
  rw [partLineStep_size _ N rfl rfl]
  rfl

/-- Counterexample to C9 as stated: for N = 2^32 the stored `mbr_size` is 0,
not N. -/
theorem c9_wrap_counterexample :
    parseFromLines ["[mbr]".toList, "size = 4294967296".toList] =
      { mbrSize := 0, partitions := [] } ∧ (0 : Nat) ≠ 4294967296 := by
  constructor
  · decide
  · decide

end OpenixPartition
